import Mathlib

/-!
Verification of the DeepPlace geometric core: the overlap test and the
randomized non-overlapping placer (`backend/data_gen/generate_images.py`),
the bin-packing optimizer (`backend/data_gen/solutions_gen.py`), the
color-based rectangle extractor (`extract_boxes` in the same file), and the
occupancy-mask accounting of `backend/src/validation.py`.

Python integers are modelled as `Int`, image pixel coordinates as `Nat`.
Randomness (`random.randint`) and the external `rectpack` packer are
modelled as explicit parameters, so every code path is a total function.
-/

namespace DeepPlace

/-- RGB triple, as the tuples in the Python sources. -/
abbrev RGB := Nat × Nat × Nat

/-- A box dict of `generate_images.py` / a placement dict of
`solutions_gen.py`: keys `x`, `y`, `width`, `height`, `color`, `color_name`. -/
structure Box where
  x : Int
  y : Int
  width : Int
  height : Int
  colorName : String
  color : RGB
  deriving DecidableEq, Repr

/-- A box dict produced by `extract_boxes`: no position, only
`width`, `height`, `color`, `color_name`. -/
structure RectDims where
  width : Int
  height : Int
  colorName : String
  color : RGB
  deriving DecidableEq, Repr

/-- The `COLORS` of both generator scripts: the fixed five-color palette,
in canonical order. -/
def COLORS : List (String × RGB) :=
  [("red", (255, 0, 0)), ("green", (0, 255, 0)), ("blue", (0, 0, 255)),
   ("orange", (255, 165, 0)), ("yellow", (255, 255, 0))]

/-- The `IMAGE_WIDTH` (both scripts). -/
def IMAGE_WIDTH : Int := 800

/-- The `IMAGE_HEIGHT` (both scripts). -/
def IMAGE_HEIGHT : Int := 600

/-- The `OUTLINE_WIDTH` (both scripts). -/
def OUTLINE_WIDTH : Int := 2

/-- The `boxes_overlap` of `generate_images.py`: strict-interior overlap test
on axis-aligned boxes. -/
def boxes_overlap (a b : Box) : Bool :=
  let aLeft := a.x
  let aTop := a.y
  let aRight := a.x + a.width
  let aBottom := a.y + a.height
  let bLeft := b.x
  let bTop := b.y
  let bRight := b.x + b.width
  let bBottom := b.y + b.height
  if aRight ≤ bLeft ∨ aLeft ≥ bRight then false
  else if aBottom ≤ bTop ∨ aTop ≥ bBottom then false
  else true

theorem boxes_overlap_eq_true_iff (a b : Box) :
    boxes_overlap a b = true ↔
      (b.x < a.x + a.width ∧ a.x < b.x + b.width ∧
       b.y < a.y + a.height ∧ a.y < b.y + b.height) := by
  simp only [boxes_overlap]
  split_ifs with h1 h2 <;> simp <;> omega

theorem boxes_overlap_symm (a b : Box) : boxes_overlap a b = boxes_overlap b a := by
  cases hab : boxes_overlap a b <;> cases hba : boxes_overlap b a <;> try rfl
  · exfalso
    have h := (boxes_overlap_eq_true_iff b a).mp hba
    have h2 : boxes_overlap a b = true := (boxes_overlap_eq_true_iff a b).mpr (by omega)
    rw [hab] at h2
    exact Bool.false_ne_true h2
  · exfalso
    have h := (boxes_overlap_eq_true_iff a b).mp hab
    have h2 : boxes_overlap b a = true := (boxes_overlap_eq_true_iff b a).mpr (by omega)
    rw [hba] at h2
    exact Bool.false_ne_true h2

theorem boxes_overlap_eq_false_iff (a b : Box) :
    boxes_overlap a b = false ↔
      ¬(b.x < a.x + a.width ∧ a.x < b.x + b.width ∧
        b.y < a.y + a.height ∧ a.y < b.y + b.height) := by
  rw [← boxes_overlap_eq_true_iff]
  simp

/-! ## The randomized non-overlapping placer (`arrange_boxes_without_overlap`) -/

/-- The two exceptions `arrange_boxes_without_overlap` can raise:
`ValueError` (from `random.randint` on an empty range, or `list.index` on an
unknown color name) and the `RuntimeError('Unable to place box without
overlap')`. -/
inductive PlaceError where
  | valueError
  | cannotPlace
  deriving DecidableEq, Repr

/-- The `color_order = list(COLORS.keys())`. -/
def COLOR_ORDER : List String := COLORS.map Prod.fst

/-- Insert `x` after every already-present element `y` with `le y x`:
the insertion step of a stable insertion sort. -/
def stableInsert (le : α → α → Bool) (x : α) : List α → List α
  | [] => [x]
  | y :: ys => if le y x then y :: stableInsert le x ys else x :: y :: ys

/-- Python's `sorted` / `list.sort`: a stable sort by a total boolean
preorder.  A stable sort is determined uniquely by the preorder, so this
structurally recursive insertion sort computes exactly what Python's
(mergesort-based) `sorted` computes; unlike `List.mergeSort` it also
reduces inside the kernel. -/
def stableSort (le : α → α → Bool) (l : List α) : List α :=
  l.foldl (fun acc x => stableInsert le x acc) []

theorem stableInsert_perm (le : α → α → Bool) (x : α) (l : List α) :
    (stableInsert le x l).Perm (x :: l) := by
  induction l with
  | nil => simp [stableInsert]
  | cons y ys ih =>
    simp only [stableInsert]
    split
    · exact ((ih.cons y).trans (List.Perm.swap x y ys))
    · exact List.Perm.refl _

theorem stableSort_perm (le : α → α → Bool) (l : List α) :
    (stableSort le l).Perm l := by
  suffices h : ∀ (l acc : List α), (l.foldl (fun acc x => stableInsert le x acc) acc).Perm (acc ++ l) by
    simpa using h l []
  intro l
  induction l with
  | nil => simp
  | cons x xs ih =>
    intro acc
    exact (ih _).trans
      (((stableInsert_perm le x acc).append_right xs).trans List.perm_middle.symm)

/-- The `color_order.index(name)` (callers guard against the missing-name
`ValueError` separately). -/
def colorIndex (name : String) : Nat := COLOR_ORDER.indexOf name

/-- The `sorted(boxes, key=lambda box: color_order.index(box['color_name']))`:
a stable sort on the palette position of the color name; `list.index`
raises `ValueError` on a name outside the palette. -/
def sortByColorOrder (boxes : List Box) : Except PlaceError (List Box) :=
  if boxes.all (fun b => COLOR_ORDER.contains b.colorName) then
    .ok (stableSort (fun a b => colorIndex a.colorName ≤ colorIndex b.colorName) boxes)
  else .error .valueError

/-- The `range(start, stop, step)` for a positive literal `step`. -/
def pyRange (start stop : Int) (step : Nat) : List Int :=
  (List.range (((stop - start).toNat + (step - 1)) / step)).map
    (fun i : Nat => start + (step : Int) * (i : Int))

/-- The `box['width'] * box['height']`, the sort key of the placement order. -/
def boxArea (b : Box) : Int := b.width * b.height

/-- Sort key lookup for `placementOrder` (indices are always in range when
called from `arrange_boxes_without_overlap`). -/
def areaAt (boxes : List Box) (i : Nat) : Int := ((boxes[i]?).map boxArea).getD 0

/-- The `sorted(range(len(boxes)), key=area, reverse=True)`: indices in
descending area order, ties keeping original order (Python sorts stably). -/
def placementOrder (boxes : List Box) : List Nat :=
  stableSort (fun i j => areaAt boxes j ≤ areaAt boxes i) (List.range boxes.length)

/-- One random trial position: `random.randint(0, IMAGE_WIDTH - w)` and
`random.randint(0, IMAGE_HEIGHT - h)` are modelled by reducing the two
components of one raw draw modulo the (positive) range sizes, so every
outcome the Python code can draw corresponds to some raw draw and
conversely. -/
def randPos (draw : Nat × Nat) (w h : Int) : Int × Int :=
  ((draw.1 : Int) % (IMAGE_WIDTH - w + 1), (draw.2 : Int) % (IMAGE_HEIGHT - h + 1))

/-- The `for _ in range(500)` random-trial loop for one box: `rng` is the
stream of raw draws and `k` the index of the next draw; returns the first
accepted position (and the next draw index), or `none` after exhausting the
budget. -/
def tryRandom (rng : Nat → Nat × Nat) (box : Box) (placed : List Box) :
    Nat → Nat → Option (Int × Int) × Nat
  | 0, k => (none, k)
  | n + 1, k =>
    let p := randPos (rng k) box.width box.height
    let cand := { box with x := p.1, y := p.2 }
    if placed.all (fun other => !boxes_overlap cand other) then (some p, k + 1)
    else tryRandom rng box placed n (k + 1)

/-- The deterministic fallback: scan `y` in `range(0, IMAGE_HEIGHT -
box['height'] + 1, 5)` (outer) and `x` in `range(0, IMAGE_WIDTH -
box['width'] + 1, 5)` (inner), accepting the first non-overlapping
position in row-major order. -/
def gridSearch (box : Box) (placed : List Box) : Option (Int × Int) :=
  (pyRange 0 (IMAGE_HEIGHT - box.height + 1) 5).findSome? fun y =>
    (pyRange 0 (IMAGE_WIDTH - box.width + 1) 5).findSome? fun x =>
      let cand := { box with x := x, y := y }
      if placed.all (fun other => !boxes_overlap cand other) then some (x, y) else none

/-- Placing one box: 500 random attempts, then the grid fallback, then the
`RuntimeError`.  A box wider or taller than the canvas makes
`random.randint` itself raise (`ValueError`), modelled by the outer guard. -/
def placeOne (rng : Nat → Nat × Nat) (k : Nat) (box : Box) (placed : List Box) :
    Except PlaceError ((Int × Int) × Nat) :=
  if box.width ≤ IMAGE_WIDTH ∧ box.height ≤ IMAGE_HEIGHT then
    match tryRandom rng box placed 500 k with
    | (some p, kNext) => .ok (p, kNext)
    | (none, kNext) =>
      match gridSearch box placed with
      | some p => .ok (p, kNext)
      | none => .error .cannotPlace
  else .error .valueError

/-- The main placement loop of `arrange_boxes_without_overlap`: walk the
index order, place each box, record its final position both in the working
list (`boxes_copy`) and in `placed_boxes`. -/
def placeLoop (rng : Nat → Nat × Nat) :
    Nat → List Box → List Nat → List Box → Except PlaceError (List Box × Nat)
  | k, arr, [], _placed => .ok (arr, k)
  | k, arr, i :: rest, placed =>
    match arr[i]? with
    | none => .error .valueError
    | some box =>
      match placeOne rng k box placed with
      | .error e => .error e
      | .ok (p, kNext) =>
        let placedBox := { box with x := p.1, y := p.2 }
        placeLoop rng kNext (arr.set i placedBox) rest (placed ++ [placedBox])

/-- The `arrange_boxes_without_overlap` of `generate_images.py`, with the
random source passed explicitly as a stream of raw draws. -/
def arrange_boxes_without_overlap (rng : Nat → Nat × Nat) (boxes : List Box) :
    Except PlaceError (List Box) :=
  match placeLoop rng 0 boxes (placementOrder boxes) [] with
  | .error e => .error e
  | .ok (arrFinal, _) => sortByColorOrder arrFinal

/-! ## Placer invariants -/

/-- A box lies fully inside the canvas. -/
def InCanvas (b : Box) : Prop :=
  0 ≤ b.x ∧ b.x + b.width ≤ IMAGE_WIDTH ∧ 0 ≤ b.y ∧ b.y + b.height ≤ IMAGE_HEIGHT

/-- The placement-independent data of a box: width, height and color. -/
def dims (b : Box) : Int × Int × String × RGB := (b.width, b.height, b.colorName, b.color)

theorem mem_pyRange {start stop v : Int} {step : Nat} (hstep : 0 < step)
    (hv : v ∈ pyRange start stop step) : start ≤ v ∧ v < stop := by
  rw [pyRange, List.mem_map] at hv
  obtain ⟨i, hi, rfl⟩ := hv
  rw [List.mem_range] at hi
  have h1 : step * (i + 1) ≤ step * (((stop - start).toNat + (step - 1)) / step) :=
    Nat.mul_le_mul_left step hi
  have h2 : (((stop - start).toNat + (step - 1)) / step) * step ≤ (stop - start).toNat + (step - 1) :=
    Nat.div_mul_le_self _ _
  rw [Nat.mul_comm] at h2
  rw [Nat.mul_succ] at h1
  obtain ⟨si, hsi⟩ : ∃ si, step * i = si := ⟨_, rfl⟩
  obtain ⟨sn, hsn⟩ : ∃ sn, step * (((stop - start).toNat + (step - 1)) / step) = sn := ⟨_, rfl⟩
  rw [hsi, hsn] at h1
  rw [hsn] at h2
  have h3 : si + 1 ≤ (stop - start).toNat := by omega
  have h4 : ((si : Nat) : Int) = (step : Int) * i := by rw [← hsi]; push_cast; ring
  rw [← h4]
  omega

theorem randPos_bounds (draw : Nat × Nat) {w h : Int}
    (hw : w ≤ IMAGE_WIDTH) (hh : h ≤ IMAGE_HEIGHT) :
    0 ≤ (randPos draw w h).1 ∧ (randPos draw w h).1 + w ≤ IMAGE_WIDTH ∧
      0 ≤ (randPos draw w h).2 ∧ (randPos draw w h).2 + h ≤ IMAGE_HEIGHT := by
  have e1 : IMAGE_WIDTH = 800 := rfl
  have e2 : IMAGE_HEIGHT = 600 := rfl
  rw [e1] at hw
  rw [e2] at hh
  simp only [randPos, e1, e2]
  have m1 := Int.emod_nonneg ((draw.1 : Int)) (show (800 - w + 1 : ℤ) ≠ 0 by omega)
  have m2 := Int.emod_lt_of_pos ((draw.1 : Int)) (show (0 : ℤ) < 800 - w + 1 by omega)
  have m3 := Int.emod_nonneg ((draw.2 : Int)) (show (600 - h + 1 : ℤ) ≠ 0 by omega)
  have m4 := Int.emod_lt_of_pos ((draw.2 : Int)) (show (0 : ℤ) < 600 - h + 1 by omega)
  exact ⟨m1, by omega, m3, by omega⟩

theorem tryRandom_some {rng : Nat → Nat × Nat} {box : Box} {placed : List Box}
    {n k kNext : Nat} {p : Int × Int}
    (hw : box.width ≤ IMAGE_WIDTH) (hh : box.height ≤ IMAGE_HEIGHT)
    (h : tryRandom rng box placed n k = (some p, kNext)) :
    (∀ o ∈ placed, boxes_overlap { box with x := p.1, y := p.2 } o = false) ∧
      InCanvas { box with x := p.1, y := p.2 } := by
  induction n generalizing k with
  | zero => simp [tryRandom] at h
  | succ m ih =>
    simp only [tryRandom] at h
    split at h
    · rename_i hall
      obtain ⟨rfl, -⟩ : randPos (rng k) box.width box.height = p ∧ k + 1 = kNext := by
        simpa using h
      have hb := randPos_bounds (rng k) hw hh
      refine ⟨?_, hb.1, hb.2.1, hb.2.2.1, hb.2.2.2⟩
      intro o ho
      have := List.all_eq_true.mp hall o ho
      simpa using this
    · exact ih h

theorem gridSearch_some {box : Box} {placed : List Box} {p : Int × Int}
    (h : gridSearch box placed = some p) :
    (∀ o ∈ placed, boxes_overlap { box with x := p.1, y := p.2 } o = false) ∧
      InCanvas { box with x := p.1, y := p.2 } := by
  simp only [gridSearch] at h
  obtain ⟨y, hy, hy2⟩ := List.exists_of_findSome?_eq_some h
  obtain ⟨x, hx, hx2⟩ := List.exists_of_findSome?_eq_some hy2
  have hyb := mem_pyRange (by norm_num) hy
  have hxb := mem_pyRange (by norm_num) hx
  split at hx2
  · rename_i hall
    obtain rfl : (x, y) = p := by simpa using hx2
    refine ⟨?_, by exact hxb.1, ?_, by exact hyb.1, ?_⟩
    · intro o ho
      have := List.all_eq_true.mp hall o ho
      simpa using this
    · show x + box.width ≤ IMAGE_WIDTH
      have := hxb.2
      omega
    · show y + box.height ≤ IMAGE_HEIGHT
      have := hyb.2
      omega
  · simp at hx2

theorem placeOne_ok {rng : Nat → Nat × Nat} {k kNext : Nat} {box : Box}
    {placed : List Box} {p : Int × Int}
    (h : placeOne rng k box placed = .ok (p, kNext)) :
    (∀ o ∈ placed, boxes_overlap { box with x := p.1, y := p.2 } o = false) ∧
      InCanvas { box with x := p.1, y := p.2 } := by
  simp only [placeOne] at h
  split at h
  · rename_i hwh
    split at h
    · rename_i pp kN htr
      obtain ⟨rfl, -⟩ : pp = p ∧ kN = kNext := by
        simpa using h
      exact tryRandom_some hwh.1 hwh.2 htr
    · rename_i kN htr
      split at h
      · rename_i q hgr
        obtain ⟨rfl, -⟩ : q = p ∧ kN = kNext := by
          simpa using h
        exact gridSearch_some hgr
      · exact absurd h (by simp)
  · exact absurd h (by simp)

theorem set_of_getElem? {α : Type _} {l : List α} {i : Nat} {a : α}
    (h : l[i]? = some a) : l.set i a = l := by
  induction l generalizing i with
  | nil => simp at h
  | cons x xs ih =>
    cases i with
    | zero =>
      simp only [List.getElem?_cons_zero, Option.some.injEq] at h
      simp [h]
    | succ j =>
      simp only [List.getElem?_cons_succ] at h
      simp [ih h]

theorem placeLoop_map_dims {rng : Nat → Nat × Nat} :
    ∀ (order : List Nat) {k : Nat} {arr placed arrF : List Box} {kF : Nat},
    placeLoop rng k arr order placed = .ok (arrF, kF) →
    arrF.map dims = arr.map dims := by
  intro order
  induction order with
  | nil =>
    intro k arr placed arrF kF h
    simp only [placeLoop] at h
    obtain ⟨rfl, rfl⟩ : arr = arrF ∧ k = kF := by simpa using h
    rfl
  | cons i rest ih =>
    intro k arr placed arrF kF h
    simp only [placeLoop] at h
    split at h
    · exact absurd h (by simp)
    · rename_i box hbox
      split at h
      · exact absurd h (by simp)
      · rename_i p kNext hpl
        have hrec := ih h
        rw [hrec]
        have hset : (arr.set i { box with x := p.1, y := p.2 }).map dims
            = (arr.map dims).set i (dims { box with x := p.1, y := p.2 }) := by
          simp [List.map_set]
        rw [hset]
        have hd : dims { box with x := p.1, y := p.2 } = dims box := rfl
        rw [hd]
        have : (arr.map dims)[i]? = some (dims box) := by
          simp [List.getElem?_map, hbox]
        rw [set_of_getElem? this]

theorem placeLoop_ok {rng : Nat → Nat × Nat} :
    ∀ (order : List Nat) {k : Nat} {arr placed arrF : List Box} {kF : Nat},
    placeLoop rng k arr order placed = .ok (arrF, kF) →
    (∀ (j : Nat) (a : Box), j ∉ order → arr[j]? = some a → a ∈ placed) →
    (∀ (j1 j2 : Nat) (a b : Box), j1 ≠ j2 → j1 ∉ order → j2 ∉ order →
        arr[j1]? = some a → arr[j2]? = some b → boxes_overlap a b = false) →
    (∀ (j : Nat) (a : Box), j ∉ order → arr[j]? = some a → InCanvas a) →
    (∀ (j1 j2 : Nat) (a b : Box), j1 ≠ j2 → arrF[j1]? = some a → arrF[j2]? = some b →
        boxes_overlap a b = false) ∧
    (∀ (j : Nat) (a : Box), arrF[j]? = some a → InCanvas a) := by
  intro order
  induction order with
  | nil =>
    intro k arr placed arrF kF h hmem hpair hcanvas
    simp only [placeLoop] at h
    obtain ⟨rfl, rfl⟩ : arr = arrF ∧ k = kF := by simpa using h
    exact ⟨fun j1 j2 a b hne h1 h2 =>
        hpair j1 j2 a b hne (List.not_mem_nil j1) (List.not_mem_nil j2) h1 h2,
      fun j a ha => hcanvas j a (List.not_mem_nil j) ha⟩
  | cons i rest ih =>
    intro k arr placed arrF kF h hmem hpair hcanvas
    simp only [placeLoop] at h
    split at h
    · exact absurd h (by simp)
    · rename_i box hbox
      split at h
      · exact absurd h (by simp)
      · rename_i p kNext hpl
        have hone := placeOne_ok hpl
        have hleni : i < arr.length := by
          rcases List.getElem?_eq_some_iff.mp hbox with ⟨hl, -⟩
          exact hl
        refine ih h ?_ ?_ ?_
        · intro j a hj hja
          by_cases hji : j = i
          · subst hji
            have : (arr.set j { box with x := p.1, y := p.2 })[j]? =
                some { box with x := p.1, y := p.2 } := by
              rw [List.getElem?_set_self]
              · simp [List.length_set, hleni]
            rw [this] at hja
            obtain rfl := (Option.some.injEq _ _).mp hja
            exact List.mem_append_right _ (List.mem_singleton.mpr rfl)
          · rw [List.getElem?_set_ne (fun hx => hji hx.symm)] at hja
            exact List.mem_append_left _
              (hmem j a (by simp [hj, hji]) hja)
        · intro j1 j2 a b hne hj1 hj2 hja hjb
          by_cases hj1i : j1 = i
          · subst hj1i
            have : (arr.set j1 { box with x := p.1, y := p.2 })[j1]? =
                some { box with x := p.1, y := p.2 } := by
              rw [List.getElem?_set_self]
              simp [List.length_set, hleni]
            rw [this] at hja
            obtain rfl := (Option.some.injEq _ _).mp hja
            have hj2i : j2 ≠ j1 := fun hx => hne hx.symm
            rw [List.getElem?_set_ne (fun hx => hj2i hx.symm)] at hjb
            exact hone.1 b (hmem j2 b (by simp [hj2, hj2i]) hjb)
          · by_cases hj2i : j2 = i
            · subst hj2i
              have : (arr.set j2 { box with x := p.1, y := p.2 })[j2]? =
                  some { box with x := p.1, y := p.2 } := by
                rw [List.getElem?_set_self]
                simp [List.length_set, hleni]
              rw [this] at hjb
              obtain rfl := (Option.some.injEq _ _).mp hjb
              rw [List.getElem?_set_ne (fun hx => hj1i hx.symm)] at hja
              rw [boxes_overlap_symm]
              exact hone.1 a (hmem j1 a (by simp [hj1, hj1i]) hja)
            · rw [List.getElem?_set_ne (fun hx => hj1i hx.symm)] at hja
              rw [List.getElem?_set_ne (fun hx => hj2i hx.symm)] at hjb
              exact hpair j1 j2 a b hne (by simp [hj1, hj1i]) (by simp [hj2, hj2i]) hja hjb
        · intro j a hj hja
          by_cases hji : j = i
          · subst hji
            have : (arr.set j { box with x := p.1, y := p.2 })[j]? =
                some { box with x := p.1, y := p.2 } := by
              rw [List.getElem?_set_self]
              simp [List.length_set, hleni]
            rw [this] at hja
            obtain rfl := (Option.some.injEq _ _).mp hja
            exact hone.2
          · rw [List.getElem?_set_ne (fun hx => hji hx.symm)] at hja
            exact hcanvas j a (by simp [hj, hji]) hja

theorem sortByColorOrder_ok {boxes out : List Box}
    (h : sortByColorOrder boxes = .ok out) : out.Perm boxes := by
  simp only [sortByColorOrder] at h
  split at h
  · obtain rfl : stableSort (fun a b => colorIndex a.colorName ≤ colorIndex b.colorName) boxes
        = out := by simpa using h
    exact stableSort_perm _ boxes
  · exact absurd h (by simp)

theorem mem_placementOrder {boxes : List Box} {j : Nat}
    (hj : j < boxes.length) : j ∈ placementOrder boxes :=
  ((stableSort_perm _ _).mem_iff).mpr (List.mem_range.mpr hj)

theorem arrange_ok_destruct {rng : Nat → Nat × Nat} {boxes out : List Box}
    (h : arrange_boxes_without_overlap rng boxes = .ok out) :
    ∃ (arrF : List Box) (kF : Nat),
      placeLoop rng 0 boxes (placementOrder boxes) [] = .ok (arrF, kF) ∧
      sortByColorOrder arrF = .ok out := by
  simp only [arrange_boxes_without_overlap] at h
  split at h
  · exact absurd h (by simp)
  · rename_i arrF kF heq
    exact ⟨arrF, kF, heq, h⟩

theorem placeLoop_top_inv {boxes : List Box} {j : Nat} {a : Box}
    (hj : j ∉ placementOrder boxes) (hja : boxes[j]? = some a) : False := by
  rcases List.getElem?_eq_some_iff.mp hja with ⟨hl, -⟩
  exact hj (mem_placementOrder hl)

/-- Claim C1.  Every pair of distinct rectangles in a normally returned
output of the placer is non-overlapping under `boxes_overlap`. -/
theorem arrange_output_no_overlap {rng : Nat → Nat × Nat} {boxes out : List Box}
    (h : arrange_boxes_without_overlap rng boxes = .ok out)
    (i j : Nat) (a b : Box) (hij : i ≠ j)
    (ha : out[i]? = some a) (hb : out[j]? = some b) :
    boxes_overlap a b = false := by
  obtain ⟨arrF, kF, heq, hsort⟩ := arrange_ok_destruct h
  have pl := placeLoop_ok (placementOrder boxes) heq
    (fun j a hj hja => absurd hja (fun hja => placeLoop_top_inv hj hja))
    (fun j1 j2 a b _ hj1 _ hja _ => absurd hja (fun hja => placeLoop_top_inv hj1 hja))
    (fun j a hj hja => absurd hja (fun hja => placeLoop_top_inv hj hja))
  have hsymm : Symmetric (fun a b : Box => boxes_overlap a b = false) := by
    intro a b hab
    rw [boxes_overlap_symm]
    exact hab
  have hPairArr : List.Pairwise (fun a b : Box => boxes_overlap a b = false) arrF := by
    rw [List.pairwise_iff_getElem]
    intro i j hi hj hij
    exact pl.1 i j _ _ (Nat.ne_of_lt hij)
      (List.getElem?_eq_getElem hi) (List.getElem?_eq_getElem hj)
  have hperm : out.Perm arrF := sortByColorOrder_ok hsort
  have hPairOut : List.Pairwise (fun a b : Box => boxes_overlap a b = false) out :=
    (hperm.pairwise_iff (fun hab => hsymm hab)).mpr hPairArr
  rcases Nat.lt_or_ge i j with hlt | hge
  · rcases List.getElem?_eq_some_iff.mp ha with ⟨hi, rfl⟩
    rcases List.getElem?_eq_some_iff.mp hb with ⟨hj2, rfl⟩
    exact List.pairwise_iff_getElem.mp hPairOut i j hi hj2 hlt
  · have hlt : j < i := Nat.lt_of_le_of_ne hge (fun hx => hij hx.symm)
    rcases List.getElem?_eq_some_iff.mp ha with ⟨hi, rfl⟩
    rcases List.getElem?_eq_some_iff.mp hb with ⟨hj2, rfl⟩
    exact hsymm (List.pairwise_iff_getElem.mp hPairOut j i hj2 hi hlt)

/-- Claim C7.  Every rectangle in a normally returned output of the placer
lies fully within the canvas. -/
theorem arrange_output_in_canvas {rng : Nat → Nat × Nat} {boxes out : List Box}
    (h : arrange_boxes_without_overlap rng boxes = .ok out) :
    ∀ b ∈ out, 0 ≤ b.x ∧ b.x + b.width ≤ IMAGE_WIDTH ∧
      0 ≤ b.y ∧ b.y + b.height ≤ IMAGE_HEIGHT := by
  obtain ⟨arrF, kF, heq, hsort⟩ := arrange_ok_destruct h
  have pl := placeLoop_ok (placementOrder boxes) heq
    (fun j a hj hja => absurd hja (fun hja => placeLoop_top_inv hj hja))
    (fun j1 j2 a b _ hj1 _ hja _ => absurd hja (fun hja => placeLoop_top_inv hj1 hja))
    (fun j a hj hja => absurd hja (fun hja => placeLoop_top_inv hj hja))
  intro b hb
  have hbArr : b ∈ arrF := (sortByColorOrder_ok hsort).mem_iff.mp hb
  obtain ⟨n, hn⟩ := List.getElem?_of_mem hbArr
  exact pl.2 n b hn

theorem arrange_map_dims {rng : Nat → Nat × Nat} {boxes out : List Box}
    (h : arrange_boxes_without_overlap rng boxes = .ok out) :
    (out.map dims).Perm (boxes.map dims) := by
  obtain ⟨arrF, kF, heq, hsort⟩ := arrange_ok_destruct h
  have h1 : (out.map dims).Perm (arrF.map dims) := (sortByColorOrder_ok hsort).map dims
  rw [placeLoop_map_dims (placementOrder boxes) heq] at h1
  exact h1

/-! ## Claim C8: characterization of the overlap test -/

/-- Claim C8.  `boxes_overlap` returns `true` iff both the x-intervals and the
y-intervals of the two boxes have non-empty interior intersection (strict
inequalities at the boundary); consequently boxes that merely touch at an
edge are reported as non-overlapping. -/
theorem boxes_overlap_characterization (a b : Box)
    (ha : 0 < a.width ∧ 0 < a.height) (hb : 0 < b.width ∧ 0 < b.height) :
    (boxes_overlap a b = true ↔
      (max a.x b.x < min (a.x + a.width) (b.x + b.width) ∧
       max a.y b.y < min (a.y + a.height) (b.y + b.height))) ∧
    (a.x + a.width = b.x → boxes_overlap a b = false) ∧
    (b.x + b.width = a.x → boxes_overlap a b = false) ∧
    (a.y + a.height = b.y → boxes_overlap a b = false) ∧
    (b.y + b.height = a.y → boxes_overlap a b = false) := by
  have hiff := boxes_overlap_eq_true_iff a b
  have hfalse := boxes_overlap_eq_false_iff a b
  obtain ⟨ha1, ha2⟩ := ha
  obtain ⟨hb1, hb2⟩ := hb
  refine ⟨?_, ?_, ?_, ?_, ?_⟩
  · rw [hiff]
    constructor
    · intro h
      refine ⟨?_, ?_⟩ <;> rw [max_lt_iff] <;> constructor <;> rw [lt_min_iff] <;> omega
    · intro h
      rw [max_lt_iff] at h
      rcases h with ⟨h1, h2⟩
      rw [lt_min_iff] at h1
      rcases h1 with ⟨h1a, h1b⟩
      rw [lt_min_iff] at h2
      rcases h2 with ⟨h2a, h2b⟩
      omega
  all_goals intro h
  all_goals rw [hfalse]
  all_goals omega

theorem boxes_overlap_characterization_witness :
    boxes_overlap ⟨0, 0, 10, 10, "red", (255, 0, 0)⟩ ⟨10, 0, 10, 10, "green", (0, 255, 0)⟩
      = false :=
  (boxes_overlap_characterization
    ⟨0, 0, 10, 10, "red", (255, 0, 0)⟩ ⟨10, 0, 10, 10, "green", (0, 255, 0)⟩
    (by decide) (by decide)).2.1 (by decide)

/-! ## Witness inputs for the placer theorems -/

/-- A random stream for the witness runs: the first trial of the k-th draw. -/
def rngW : Nat → Nat × Nat := fun k => (100 * k, 0)

/-- Two small witness boxes (green 5×5, red 10×10). -/
def boxesW : List Box :=
  [⟨0, 0, 5, 5, "green", (0, 255, 0)⟩, ⟨0, 0, 10, 10, "red", (255, 0, 0)⟩]

/-- The placement `arrange_boxes_without_overlap rngW boxesW` computes. -/
def outW : List Box :=
  [⟨0, 0, 10, 10, "red", (255, 0, 0)⟩, ⟨100, 0, 5, 5, "green", (0, 255, 0)⟩]

theorem arrange_output_no_overlap_witness :
    boxes_overlap ⟨0, 0, 10, 10, "red", (255, 0, 0)⟩ ⟨100, 0, 5, 5, "green", (0, 255, 0)⟩
      = false :=
  arrange_output_no_overlap
    (show arrange_boxes_without_overlap rngW boxesW = .ok outW from by rfl)
    0 1 _ _ (by decide) (by rfl) (by rfl)

theorem arrange_output_in_canvas_witness :
    (0 : Int) ≤ 100 ∧ (100 : Int) + 5 ≤ IMAGE_WIDTH ∧
      (0 : Int) ≤ 0 ∧ (0 : Int) + 5 ≤ IMAGE_HEIGHT :=
  arrange_output_in_canvas
    (show arrange_boxes_without_overlap rngW boxesW = .ok outW from by rfl)
    ⟨100, 0, 5, 5, "green", (0, 255, 0)⟩ (by decide)

/-! ## Claim C4: what the fatal error does and does not imply -/

/-- A relocation of `orig` with the same dimension/color data, pairwise
non-overlapping, all inside the canvas — a witness that the canvas can hold
the original boxes without overlap. -/
def NonOverlapAssignment (orig assign : List Box) : Prop :=
  assign.map dims = orig.map dims ∧
  List.Pairwise (fun a b => boxes_overlap a b = false) assign ∧
  ∀ b ∈ assign, 0 ≤ b.x ∧ b.x + b.width ≤ IMAGE_WIDTH ∧
    0 ≤ b.y ∧ b.y + b.height ≤ IMAGE_HEIGHT

instance (orig assign : List Box) : Decidable (NonOverlapAssignment orig assign) := by
  unfold NonOverlapAssignment
  infer_instance

/-- A constant random stream that always proposes the same draw. -/
def rngC : Nat → Nat × Nat := fun _ => (0, 1)

/-- A canvas-wide 800×597 box and a thin 800×3 strip: together they fit the
600-pixel-tall canvas only when flush with its top and bottom edges. -/
def boxesC : List Box :=
  [⟨0, 0, 800, 597, "red", (255, 0, 0)⟩, ⟨0, 0, 800, 3, "green", (0, 255, 0)⟩]

/-- The feasible layout the placer fails to find under `rngC`. -/
def assignC : List Box :=
  [⟨0, 0, 800, 597, "red", (255, 0, 0)⟩, ⟨0, 597, 800, 3, "green", (0, 255, 0)⟩]

set_option maxRecDepth 8000 in
/-- Claim C4, counterexample.  A run of the placer that raises the fatal
`RuntimeError` although a non-overlapping, in-canvas assignment of the very
same rectangles exists: after the random phase drops the 800×597 box at
`y = 1`, no step-5 grid position can host the 800×3 strip, yet placing the
big box at `y = 0` and the strip at `y = 597` is a valid layout. -/
theorem arrange_error_not_infeasible :
    arrange_boxes_without_overlap rngC boxesC = .error .cannotPlace ∧
      NonOverlapAssignment boxesC assignC := by
  constructor
  · rfl
  · decide

theorem placeOne_cannotPlace {rng : Nat → Nat × Nat} {k : Nat} {box : Box}
    {placed : List Box}
    (h : placeOne rng k box placed = .error .cannotPlace) :
    box.width ≤ IMAGE_WIDTH ∧ box.height ≤ IMAGE_HEIGHT ∧
    ∀ y ∈ pyRange 0 (IMAGE_HEIGHT - box.height + 1) 5,
      ∀ x ∈ pyRange 0 (IMAGE_WIDTH - box.width + 1) 5,
        ∃ o ∈ placed, boxes_overlap { box with x := x, y := y } o = true := by
  simp only [placeOne] at h
  split at h
  · rename_i hwh
    split at h
    · exact absurd h (by simp)
    · rename_i kN htr
      split at h
      · exact absurd h (by simp)
      · rename_i hgr
        refine ⟨hwh.1, hwh.2, ?_⟩
        intro y hy x hx
        simp only [gridSearch] at hgr
        rw [List.findSome?_eq_none_iff] at hgr
        have hrow := hgr y hy
        rw [List.findSome?_eq_none_iff] at hrow
        have hcell := hrow x hx
        split at hcell
        · exact absurd hcell (by simp)
        · rename_i hnotall
          rcases List.all_eq_false.mp (Bool.eq_false_iff.mpr hnotall) with ⟨o, ho, hov⟩
          refine ⟨o, ho, ?_⟩
          simpa using hov
  · exact absurd h (by simp)

/-! ## The color-based rectangle extractor (`extract_boxes`, `solutions_gen.py`) -/

/-- A decoded raster image: `img.size` and `img.load()` of PIL, as a
pixel-addressable function. -/
structure Image where
  width : Nat
  height : Nat
  pix : Nat → Nat → RGB

/-- The `COLOR_LOOKUP.get(pixel)`: the reverse dictionary `{rgb: name}` built
from `COLORS` (the five RGB keys are distinct, so lookup order is
immaterial). -/
def colorLookup (c : RGB) : Option String :=
  if c = (255, 0, 0) then some "red"
  else if c = (0, 255, 0) then some "green"
  else if c = (0, 0, 255) then some "blue"
  else if c = (255, 165, 0) then some "orange"
  else if c = (255, 255, 0) then some "yellow"
  else none

/-- The `COLORS[color_name]` for a palette name. -/
def paletteRGB (name : String) : RGB :=
  if name = "red" then (255, 0, 0)
  else if name = "green" then (0, 255, 0)
  else if name = "blue" then (0, 0, 255)
  else if name = "orange" then (255, 165, 0)
  else if name = "yellow" then (255, 255, 0)
  else (0, 0, 0)

/-- The per-color extent tracker `{"min_x": width, "max_x": -1, "min_y":
height, "max_y": -1}`. -/
structure Ext where
  min_x : Int
  max_x : Int
  min_y : Int
  max_y : Int
  deriving DecidableEq, Repr

/-- Initial tracker state for one color. -/
def initExt (img : Image) : Ext :=
  ⟨(img.width : Int), -1, (img.height : Int), -1⟩

/-- The four `if`-updates applied to a tracker when pixel `(x, y)` matches
its color. -/
def updateExt (d : Ext) (x y : Nat) : Ext :=
  { min_x := if (x : Int) < d.min_x then (x : Int) else d.min_x
    max_x := if (x : Int) > d.max_x then (x : Int) else d.max_x
    min_y := if (y : Int) < d.min_y then (y : Int) else d.min_y
    max_y := if (y : Int) > d.max_y then (y : Int) else d.max_y }

/-- Processing one pixel: look its color up and update the matching
color's tracker (if any). -/
def stepPixel (img : Image) (st : List (String × Ext)) (x y : Nat) :
    List (String × Ext) :=
  match colorLookup (img.pix x y) with
  | none => st
  | some name => st.map fun e => if e.1 = name then (e.1, updateExt e.2 x y) else e

/-- The pixels visited by `for y in range(height): for x in range(width)`,
in visiting order. -/
def pixelsOf (img : Image) : List (Nat × Nat) :=
  (List.range img.height).flatMap fun y => (List.range img.width).map fun x => (x, y)

/-- The whole scanning loop of `extract_boxes`: fold the per-pixel update
over all pixels, starting from one fresh tracker per palette color (Python
dicts preserve the palette insertion order). -/
def scanImage (img : Image) : List (String × Ext) :=
  (pixelsOf img).foldl (fun st p => stepPixel img st p.1 p.2)
    (COLORS.map fun e => (e.1, initExt img))

/-- The per-color body of the box-building loop of `extract_boxes`: skip a
color whose tracker was never touched (`max_x == -1`), otherwise expand the
tracked extents by the outline width, clamp to the image, and emit the
rectangle. -/
def extractRect (img : Image) (e : String × Ext) : Option RectDims :=
  if e.2.max_x = -1 then none
  else
    let min_x := max (e.2.min_x - OUTLINE_WIDTH) 0
    let min_y := max (e.2.min_y - OUTLINE_WIDTH) 0
    let max_x := min (e.2.max_x + OUTLINE_WIDTH) ((img.width : Int) - 1)
    let max_y := min (e.2.max_y + OUTLINE_WIDTH) ((img.height : Int) - 1)
    some ⟨max_x - min_x + 1, max_y - min_y + 1, e.1, paletteRGB e.1⟩

/-- The `extract_boxes` of `solutions_gen.py`: recover one rectangle per
palette color found in the image, skipping absent colors, raising
`ValueError` when nothing was found. -/
def extract_boxes (img : Image) : Except String (List RectDims) :=
  let boxes := (scanImage img).filterMap (extractRect img)
  if boxes.isEmpty then .error "No recognizable rectangles found"
  else .ok boxes

/-- The color `name` has at least one exactly-matching pixel in the image. -/
def HasColorPixel (img : Image) (name : String) : Prop :=
  ∃ p ∈ pixelsOf img, img.pix p.1 p.2 = paletteRGB name

instance (img : Image) (name : String) : Decidable (HasColorPixel img name) := by
  unfold HasColorPixel
  infer_instance

theorem colorLookup_some_iff {c : RGB} {name : String} (hname : name ∈ COLOR_ORDER) :
    colorLookup c = some name ↔ c = paletteRGB name := by
  have h5 : name = "red" ∨ name = "green" ∨ name = "blue" ∨ name = "orange" ∨
      name = "yellow" := by
    simpa [COLOR_ORDER, COLORS] using hname
  obtain ⟨c1, c2, c3⟩ := c
  rcases h5 with rfl | rfl | rfl | rfl | rfl <;>
    · simp only [colorLookup, paletteRGB]
      split_ifs with h1 h2 h3 h4 h5 <;> simp_all [Prod.ext_iff]

/-- Some pixel among `seen` looks up to color `name`. -/
def MatchedIn (img : Image) (name : String) (seen : List (Nat × Nat)) : Prop :=
  ∃ p ∈ seen, colorLookup (img.pix p.1 p.2) = some name

/-- Invariant of one color tracker after scanning the pixels `seen`:
either untouched (no match yet) or its extents are well-ordered and inside
the image. -/
def ExtInv (img : Image) (name : String) (d : Ext) (seen : List (Nat × Nat)) : Prop :=
  (d = initExt img ∧ ¬ MatchedIn img name seen) ∨
  (MatchedIn img name seen ∧
    0 ≤ d.min_x ∧ d.min_x ≤ d.max_x ∧ d.max_x < (img.width : Int) ∧
    0 ≤ d.min_y ∧ d.min_y ≤ d.max_y ∧ d.max_y < (img.height : Int))

theorem MatchedIn.append {img : Image} {name : String} {seen l : List (Nat × Nat)}
    (h : MatchedIn img name seen) : MatchedIn img name (seen ++ l) := by
  obtain ⟨p, hp, hpl⟩ := h
  exact ⟨p, List.mem_append_left l hp, hpl⟩

theorem stepPixel_inv {img : Image} {st : List (String × Ext)} {x y : Nat}
    (hx : x < img.width) (hy : y < img.height) {seen : List (Nat × Nat)}
    (hinv : ∀ e ∈ st, ExtInv img e.1 e.2 seen) :
    ∀ e ∈ stepPixel img st x y, ExtInv img e.1 e.2 (seen ++ [(x, y)]) := by
  intro e he
  unfold stepPixel at he
  cases hlk : colorLookup (img.pix x y) with
  | none =>
    rw [hlk] at he
    rcases hinv e he with ⟨hd, hnm⟩ | ⟨hm, hb⟩
    · left
      refine ⟨hd, ?_⟩
      rintro ⟨p, hp, hpl⟩
      rcases List.mem_append.mp hp with hp | hp
      · exact hnm ⟨p, hp, hpl⟩
      · obtain rfl : p = (x, y) := by simpa using hp
        rw [hlk] at hpl
        exact Option.noConfusion hpl
    · exact Or.inr ⟨hm.append, hb⟩
  | some nm =>
    rw [hlk] at he
    obtain ⟨e0, he0, heq⟩ := List.mem_map.mp he
    by_cases hn : e0.1 = nm
    · rw [if_pos hn] at heq
      subst heq
      have hmatch : MatchedIn img e0.1 (seen ++ [(x, y)]) := by
        refine ⟨(x, y), List.mem_append_right seen (by simp), ?_⟩
        rw [hlk, hn]
      right
      refine ⟨hmatch, ?_⟩
      have hxw : ((x : Int)) < (img.width : Int) := by exact_mod_cast hx
      have hyh : ((y : Int)) < (img.height : Int) := by exact_mod_cast hy
      have hx0 : (0 : Int) ≤ (x : Int) := Int.natCast_nonneg x
      have hy0 : (0 : Int) ≤ (y : Int) := Int.natCast_nonneg y
      rcases hinv e0 he0 with ⟨hd, -⟩ | ⟨-, hb⟩
      · rw [hd]
        simp only [updateExt, initExt]
        split_ifs <;> simp_all <;> omega
      · simp only [updateExt]
        split_ifs <;> simp_all <;> omega
    · rw [if_neg hn] at heq
      subst heq
      rcases hinv e0 he0 with ⟨hd, hnm⟩ | ⟨hm, hb⟩
      · left
        refine ⟨hd, ?_⟩
        rintro ⟨p, hp, hpl⟩
        rcases List.mem_append.mp hp with hp | hp
        · exact hnm ⟨p, hp, hpl⟩
        · obtain rfl : p = (x, y) := by simpa using hp
          rw [hlk] at hpl
          exact hn (Option.some.inj hpl).symm
      · exact Or.inr ⟨hm.append, hb⟩

theorem scan_fold_inv (img : Image) :
    ∀ (ps : List (Nat × Nat)) (st : List (String × Ext)) (seen : List (Nat × Nat)),
    (∀ p ∈ ps, p.1 < img.width ∧ p.2 < img.height) →
    (∀ e ∈ st, ExtInv img e.1 e.2 seen) →
    ∀ e ∈ ps.foldl (fun st p => stepPixel img st p.1 p.2) st,
      ExtInv img e.1 e.2 (seen ++ ps) := by
  intro ps
  induction ps with
  | nil =>
    intro st seen _ hinv e he
    simpa using hinv e he
  | cons p qs ih =>
    intro st seen hps hinv e he
    have hp := hps p (List.mem_cons_self p qs)
    have hstep := stepPixel_inv hp.1 hp.2 hinv
    have := ih (stepPixel img st p.1 p.2) (seen ++ [p])
      (fun q hq => hps q (List.mem_cons_of_mem p hq)) hstep e (by simpa using he)
    rwa [List.append_assoc, List.singleton_append] at this

theorem stepPixel_map_fst (img : Image) (st : List (String × Ext)) (x y : Nat) :
    (stepPixel img st x y).map Prod.fst = st.map Prod.fst := by
  unfold stepPixel
  cases colorLookup (img.pix x y) with
  | none => rfl
  | some nm =>
    rw [List.map_map]
    congr 1
    funext e
    by_cases hn : e.1 = nm <;> simp [hn]

theorem scan_fold_map_fst (img : Image) :
    ∀ (ps : List (Nat × Nat)) (st : List (String × Ext)),
    (ps.foldl (fun st p => stepPixel img st p.1 p.2) st).map Prod.fst = st.map Prod.fst := by
  intro ps
  induction ps with
  | nil => intro st; rfl
  | cons p qs ih =>
    intro st
    rw [List.foldl_cons, ih, stepPixel_map_fst]

theorem mem_pixelsOf {img : Image} {p : Nat × Nat} (hp : p ∈ pixelsOf img) :
    p.1 < img.width ∧ p.2 < img.height := by
  simp only [pixelsOf, List.mem_flatMap, List.mem_map, List.mem_range] at hp
  obtain ⟨y, hy, x, hx, rfl⟩ := hp
  exact ⟨hx, hy⟩

theorem scanImage_inv (img : Image) :
    ∀ e ∈ scanImage img, ExtInv img e.1 e.2 (pixelsOf img) := by
  intro e he
  unfold scanImage at he
  have hstart : ∀ e0 ∈ (COLORS.map fun c => (c.1, initExt img)), ExtInv img e0.1 e0.2 [] := by
    intro e0 he0
    obtain ⟨c, -, rfl⟩ := List.mem_map.mp he0
    refine Or.inl ⟨rfl, ?_⟩
    rintro ⟨p, hp, -⟩
    exact (List.not_mem_nil p) hp
  have := scan_fold_inv img (pixelsOf img) _ [] (fun p hp => mem_pixelsOf hp) hstart e he
  simpa using this

theorem scanImage_map_fst (img : Image) :
    (scanImage img).map Prod.fst = COLOR_ORDER := by
  unfold scanImage
  rw [scan_fold_map_fst, List.map_map]
  rfl

theorem matchedIn_iff_hasColorPixel {img : Image} {name : String}
    (hname : name ∈ COLOR_ORDER) :
    MatchedIn img name (pixelsOf img) ↔ HasColorPixel img name := by
  unfold MatchedIn HasColorPixel
  constructor
  · rintro ⟨p, hp, hpl⟩
    exact ⟨p, hp, (colorLookup_some_iff hname).mp hpl⟩
  · rintro ⟨p, hp, hpc⟩
    exact ⟨p, hp, (colorLookup_some_iff hname).mpr hpc⟩

theorem scanImage_entry_iff (img : Image) :
    ∀ e ∈ scanImage img, (e.2.max_x = -1 ↔ ¬ HasColorPixel img e.1) := by
  intro e he
  have hname : e.1 ∈ COLOR_ORDER := by
    rw [← scanImage_map_fst img]
    exact List.mem_map_of_mem Prod.fst he
  have hmiff : MatchedIn img e.1 (pixelsOf img) ↔ HasColorPixel img e.1 :=
    matchedIn_iff_hasColorPixel hname
  rcases scanImage_inv img e he with ⟨hd, hnm⟩ | ⟨hm, hb⟩
  · constructor
    · intro _ hhas
      exact hnm (hmiff.mpr hhas)
    · intro _
      rw [hd]
      rfl
  · constructor
    · intro hmx
      exfalso
      omega
    · intro hnot
      exact absurd (hmiff.mp hm) hnot

theorem filterMap_extractRect_names (img : Image) :
    ∀ (st : List (String × Ext)),
    (∀ e ∈ st, (e.2.max_x = -1 ↔ ¬ HasColorPixel img e.1)) →
    ((st.filterMap (extractRect img)).map (fun b => b.colorName))
      = (st.map Prod.fst).filter (fun n => decide (HasColorPixel img n)) := by
  intro st
  induction st with
  | nil => intro _; rfl
  | cons e st ih =>
    intro hst
    have he := hst e (List.mem_cons_self e st)
    have hrest := ih (fun e0 he0 => hst e0 (List.mem_cons_of_mem e he0))
    by_cases hmx : e.2.max_x = -1
    · have hskip : extractRect img e = none := by simp [extractRect, hmx]
      have hno : decide (HasColorPixel img e.1) = false := by
        simp only [decide_eq_false_iff_not]
        exact he.mp hmx
      simp only [List.filterMap_cons, hskip, List.map_cons,
        List.filter_cons, hno]
      exact hrest
    · have hemit : extractRect img e = some
          ⟨min (e.2.max_x + OUTLINE_WIDTH) ((img.width : Int) - 1)
             - max (e.2.min_x - OUTLINE_WIDTH) 0 + 1,
           min (e.2.max_y + OUTLINE_WIDTH) ((img.height : Int) - 1)
             - max (e.2.min_y - OUTLINE_WIDTH) 0 + 1,
           e.1, paletteRGB e.1⟩ := by
        simp [extractRect, hmx]
      have hyes : decide (HasColorPixel img e.1) = true := by
        simp only [decide_eq_true_eq]
        by_contra hno
        exact hmx (he.mpr hno)
      simp only [List.filterMap_cons, hemit, List.map_cons,
        List.filter_cons, hyes]
      rw [hrest]
      simp

/-- Claim C9.  The extractor omits palette colors with no exactly-matching
pixel without raising (its output lists, in palette order, exactly the
colors that occur), and it raises if and only if no palette color matches
any pixel. -/
theorem extract_boxes_error_and_omission (img : Image) :
    ((∃ msg, extract_boxes img = .error msg) ↔
        ∀ name ∈ COLOR_ORDER, ¬ HasColorPixel img name) ∧
    (∀ bs, extract_boxes img = .ok bs →
        bs.map (fun b => b.colorName)
          = COLOR_ORDER.filter (fun name => decide (HasColorPixel img name))) := by
  have hnames : ((scanImage img).filterMap (extractRect img)).map (fun b => b.colorName)
      = COLOR_ORDER.filter (fun name => decide (HasColorPixel img name)) := by
    rw [filterMap_extractRect_names img (scanImage img) (scanImage_entry_iff img),
      scanImage_map_fst]
  constructor
  · constructor
    · rintro ⟨msg, hmsg⟩ name hname hhas
      simp only [extract_boxes] at hmsg
      split at hmsg
      · rename_i hempty
        rw [List.isEmpty_iff] at hempty
        rw [hempty] at hnames
        have hmem : name ∈ COLOR_ORDER.filter (fun n => decide (HasColorPixel img n)) :=
          List.mem_filter.mpr ⟨hname, by simpa using hhas⟩
        rw [← hnames] at hmem
        exact (List.not_mem_nil name) hmem
      · exact absurd hmsg (by simp)
    · intro hall
      simp only [extract_boxes]
      split
      · exact ⟨_, rfl⟩
      · rename_i hne
        exfalso
        have hne2 : (scanImage img).filterMap (extractRect img) ≠ [] := by
          simpa [List.isEmpty_eq_false] using hne
        obtain ⟨b, hb⟩ := List.exists_mem_of_ne_nil _ hne2
        have : b.colorName ∈ COLOR_ORDER.filter (fun n => decide (HasColorPixel img n)) := by
          rw [← hnames]
          exact List.mem_map_of_mem (fun b => b.colorName) hb
        have hmem := List.mem_filter.mp this
        exact hall b.colorName hmem.1 (by simpa using hmem.2)
  · intro bs hbs
    simp only [extract_boxes] at hbs
    split at hbs
    · exact absurd hbs (by simp)
    · obtain rfl : (scanImage img).filterMap (extractRect img) = bs := by
        simpa using hbs
      exact hnames

/-- Claim C10.  Every rectangle the extractor emits has positive width and
height: the outward expansion by the outline margin followed by clamping
to the image preserves the ordering of the tracked extents. -/
theorem extract_boxes_positive_dims {img : Image} {bs : List RectDims}
    (h : extract_boxes img = .ok bs) :
    ∀ b ∈ bs, 1 ≤ b.width ∧ 1 ≤ b.height := by
  simp only [extract_boxes] at h
  split at h
  · exact absurd h (by simp)
  · obtain rfl : (scanImage img).filterMap (extractRect img) = bs := by
      simpa using h
    intro b hb
    obtain ⟨e, he, hge⟩ := List.mem_filterMap.mp hb
    have hinv := scanImage_inv img e he
    unfold extractRect at hge
    split at hge
    · exact absurd hge (by simp)
    · rename_i hmx
      obtain rfl : (⟨min (e.2.max_x + OUTLINE_WIDTH) ((img.width : Int) - 1)
             - max (e.2.min_x - OUTLINE_WIDTH) 0 + 1,
           min (e.2.max_y + OUTLINE_WIDTH) ((img.height : Int) - 1)
             - max (e.2.min_y - OUTLINE_WIDTH) 0 + 1,
           e.1, paletteRGB e.1⟩ : RectDims) = b := by
        simpa using hge
      rcases hinv with ⟨hd, -⟩ | ⟨-, hb1, hb2, hb3, hb4, hb5, hb6⟩
      · exfalso
        apply hmx
        rw [hd]
        rfl
      · have how : OUTLINE_WIDTH = 2 := rfl
        have hA : max (e.2.min_x - OUTLINE_WIDTH) 0 ≤ e.2.min_x :=
          max_le (by omega) hb1
        have hB : e.2.max_x ≤ min (e.2.max_x + OUTLINE_WIDTH) ((img.width : Int) - 1) :=
          le_min (by omega) (by omega)
        have hC : max (e.2.min_y - OUTLINE_WIDTH) 0 ≤ e.2.min_y :=
          max_le (by omega) hb4
        have hD : e.2.max_y ≤ min (e.2.max_y + OUTLINE_WIDTH) ((img.height : Int) - 1) :=
          le_min (by omega) (by omega)
        constructor
        · show (1 : Int) ≤ _ - _ + 1
          omega
        · show (1 : Int) ≤ _ - _ + 1
          omega

/-- A 3×2 witness image: one red pixel at (0,0), one green pixel at (2,1),
grey elsewhere. -/
def imgWit : Image where
  width := 3
  height := 2
  pix := fun x y =>
    if x = 0 ∧ y = 0 then (255, 0, 0)
    else if x = 2 ∧ y = 1 then (0, 255, 0)
    else (7, 7, 7)

theorem extract_boxes_error_and_omission_witness :
    ([(⟨3, 2, "red", (255, 0, 0)⟩ : RectDims), ⟨3, 2, "green", (0, 255, 0)⟩].map
        (fun b => b.colorName))
      = COLOR_ORDER.filter (fun name => decide (HasColorPixel imgWit name)) :=
  (extract_boxes_error_and_omission imgWit).2
    [⟨3, 2, "red", (255, 0, 0)⟩, ⟨3, 2, "green", (0, 255, 0)⟩] (by rfl)

theorem extract_boxes_positive_dims_witness :
    (1 : Int) ≤ 3 ∧ (1 : Int) ≤ 2 :=
  extract_boxes_positive_dims
    (show extract_boxes imgWit = .ok
        [⟨3, 2, "red", (255, 0, 0)⟩, ⟨3, 2, "green", (0, 255, 0)⟩] from by rfl)
    ⟨3, 2, "red", (255, 0, 0)⟩ (by decide)

/-! ## Occupancy accounting of `validation.py` (C3) -/

/-- A detected bounding box `(x, y, w, h)` as produced by
`cv2.boundingRect` (non-negative coordinates inside the image). -/
structure DetRect where
  x : Nat
  y : Nat
  w : Nat
  h : Nat
  deriving DecidableEq, Repr

/-- The set of mask pixels filled by
`cv2.rectangle(mask, (x, y), (x + w, y + h), 255, -1)`: OpenCV fills the
closed rectangle with BOTH corners inclusive, clipped to the image, so a
box of nominal size `w × h` covers `(w + 1) × (h + 1)` pixels. -/
def rectMask (width height : Nat) (r : DetRect) : Finset (Nat × Nat) :=
  (Finset.Ico r.x (min (r.x + r.w + 1) width)) ×ˢ
    (Finset.Ico r.y (min (r.y + r.h + 1) height))

/-- The single-channel occupancy mask of `annotate_and_collect`: the union
of the filled rectangles over an initially zero canvas. -/
def occupancyMask (width height : Nat) (rs : List DetRect) : Finset (Nat × Nat) :=
  rs.foldl (fun m r => m ∪ rectMask width height r) ∅

/-- The `real_occupied_pixels = int(np.sum(mask == 255))` of
`summarize_and_label`: the number of set mask pixels. -/
def occupiedPixels (width height : Nat) (rs : List DetRect) : Nat :=
  (occupancyMask width height rs).card

/-- Two detected rectangles overlap (strict interior intersection, the
same relation `boxes_overlap` decides for placement boxes). -/
def detOverlap (a b : DetRect) : Prop :=
  b.x < a.x + a.w ∧ a.x < b.x + b.w ∧ b.y < a.y + a.h ∧ a.y < b.y + b.h

instance (a b : DetRect) : Decidable (detOverlap a b) := by
  unfold detOverlap
  infer_instance

theorem card_rectMask_le (width height : Nat) (r : DetRect) :
    (rectMask width height r).card ≤ (r.w + 1) * (r.h + 1) := by
  rw [rectMask, Finset.card_product, Nat.card_Ico, Nat.card_Ico]
  have h1 : min (r.x + r.w + 1) width - r.x ≤ r.w + 1 := by omega
  have h2 : min (r.y + r.h + 1) height - r.y ≤ r.h + 1 := by omega
  exact Nat.mul_le_mul h1 h2

/-- Claim C3, amended.  When two detected in-image rectangles overlap, the
occupied-pixel count is strictly less than the sum of their rasterized
mask areas `(w+1) * (h+1)` — the union shares at least one pixel.  The
claim's bound `w * h` fails because OpenCV fills both corners inclusively. -/
theorem occupied_lt_sum_rasterized {W H : Nat} {a b : DetRect}
    (hov : detOverlap a b)
    (haW : a.x + a.w ≤ W) (haH : a.y + a.h ≤ H)
    (hbW : b.x + b.w ≤ W) (hbH : b.y + b.h ≤ H) :
    occupiedPixels W H [a, b] < (a.w + 1) * (a.h + 1) + (b.w + 1) * (b.h + 1) := by
  obtain ⟨h1, h2, h3, h4⟩ := hov
  have hmask : occupancyMask W H [a, b] = rectMask W H a ∪ rectMask W H b := by
    simp [occupancyMask]
  have hpt : (max a.x b.x, max a.y b.y) ∈ rectMask W H a ∩ rectMask W H b := by
    simp only [Finset.mem_inter, rectMask, Finset.mem_product, Finset.mem_Ico]
    refine ⟨⟨⟨?_, ?_⟩, ?_, ?_⟩, ⟨?_, ?_⟩, ?_, ?_⟩ <;> omega
  have hinter : 1 ≤ (rectMask W H a ∩ rectMask W H b).card :=
    Finset.card_pos.mpr ⟨_, hpt⟩
  have hsum := Finset.card_union_add_card_inter (rectMask W H a) (rectMask W H b)
  have hca := card_rectMask_le W H a
  have hcb := card_rectMask_le W H b
  rw [occupiedPixels, hmask]
  omega

/-- The two overlapping detected rectangles of the counterexample. -/
def r1c : DetRect := ⟨0, 0, 10, 10⟩

/-- Second counterexample rectangle, overlapping `r1c` in a 2×2 region. -/
def r2c : DetRect := ⟨9, 9, 10, 10⟩

set_option maxRecDepth 20000 in
/-- Claim C3, counterexample.  In a 30×30 image the two overlapping 10×10
detected rectangles cover 238 mask pixels — MORE than the sum
`10*10 + 10*10 = 200` of their nominal areas, because each rasterized
rectangle covers `11 × 11` pixels.  The claimed strict inequality fails. -/
theorem occupied_count_exceeds_area_sum :
    detOverlap r1c r2c ∧
    occupiedPixels 30 30 [r1c, r2c] = 238 ∧
    ¬(occupiedPixels 30 30 [r1c, r2c] < r1c.w * r1c.h + r2c.w * r2c.h) := by
  refine ⟨by decide, by decide, by decide⟩

theorem occupied_lt_sum_rasterized_witness :
    occupiedPixels 30 30 [⟨0, 0, 10, 10⟩, ⟨9, 9, 10, 10⟩]
      < (10 + 1) * (10 + 1) + (10 + 1) * (10 + 1) :=
  occupied_lt_sum_rasterized (by decide) (by decide) (by decide) (by decide) (by decide)

/-! ## The bin-packing optimizer (`solutions_gen.py`) -/

/-- One entry of `rectpack`'s `rect_list()`: `(x, y, w, h, rid)` (the bin
index is dropped — a single bin is added per attempt). -/
structure PackedRect where
  x : Int
  y : Int
  w : Int
  h : Int
  rid : Nat
  deriving DecidableEq, Repr

/-- The placement-relevant view of a packed rectangle. -/
def boxOfPacked (r : PackedRect) : Box := ⟨r.x, r.y, r.w, r.h, "", (0, 0, 0)⟩

/-- Modelled from the spec: the external `rectpack` library
(`newPacker(rotation=True)`; `add_rect` for each `(width, height)` with
`rid` = the enumeration index; one `add_bin(width, height)`; `pack()`;
`rect_list()`).  The library itself is not part of this repository, so the
packing algorithm is abstracted as a function from the added rectangle
dimensions and the bin to the placed rectangles; `PackerOk` states its
documented interface guarantees. -/
def PackerFn := List (Int × Int) → Int → Int → List PackedRect

/-- The interface contract of `rectpack` (spec §4.5: 2D bin packing with
free rotation): every reported rectangle carries the `rid` of an added
rectangle, its dimensions are the added ones up to rotation, it lies
inside the bin, each added rectangle is reported at most once, and
reported rectangles do not overlap. -/
def PackerOk (packer : PackerFn) : Prop :=
  ∀ (ds : List (Int × Int)) (W H : Int),
    (∀ r ∈ packer ds W H,
        ∃ d, ds[r.rid]? = some d ∧ ((r.w, r.h) = d ∨ (r.w, r.h) = (d.2, d.1)) ∧
          0 ≤ r.x ∧ 0 ≤ r.y ∧ r.x + r.w ≤ W ∧ r.y + r.h ≤ H) ∧
    (packer ds W H).Pairwise (fun r s => r.rid ≠ s.rid ∧
        boxes_overlap (boxOfPacked r) (boxOfPacked s) = false)

/-- The crop bounds dictionary of `compute_bounds`. -/
structure Bounds where
  left : Int
  top : Int
  right : Int
  bottom : Int
  deriving DecidableEq, Repr

/-- The `compute_bounds` of `solutions_gen.py` (and, identically, of
`generate_images.py`): the minimal rectangle covering all boxes, expanded
by the outline width and clamped to the canvas; `min()`/`max()` of an
empty sequence raise `ValueError`. -/
def compute_bounds : List Box → Option Bounds
  | [] => none
  | b :: rest =>
    let min_x := rest.foldl (fun m q => min m q.x) b.x
    let min_y := rest.foldl (fun m q => min m q.y) b.y
    let max_x := rest.foldl (fun m q => max m (q.x + q.width)) (b.x + b.width)
    let max_y := rest.foldl (fun m q => max m (q.y + q.height)) (b.y + b.height)
    some { left := max (min_x - OUTLINE_WIDTH) 0
           top := max (min_y - OUTLINE_WIDTH) 0
           right := min (max_x + OUTLINE_WIDTH) IMAGE_WIDTH
           bottom := min (max_y + OUTLINE_WIDTH) IMAGE_HEIGHT }

/-- The area of a crop bounds rectangle: `(right - left) * (bottom - top)`. -/
def boundsArea (bd : Bounds) : Int := (bd.right - bd.left) * (bd.bottom - bd.top)

/-- The `placements` loop body of `try_pack_in_bin`: look each reported
`rid` up among the input boxes and combine the packed geometry with the
source color.  (In Python an out-of-range `rid` would raise `IndexError`;
the rectpack interface rules it out, and it is modelled as a failed
attempt.) -/
def convertRects (boxes : List RectDims) : List PackedRect → Option (List Box)
  | [] => some []
  | r :: rs =>
    match boxes[r.rid]? with
    | none => none
    | some b =>
      match convertRects boxes rs with
      | none => none
      | some tail =>
        some ({ x := r.x, y := r.y, width := r.w, height := r.h,
                colorName := b.colorName, color := b.color } :: tail)

/-- The `try_pack_in_bin` of `solutions_gen.py`: one independent packing
attempt into a `width × height` bin; `None` when some rectangle was not
placed, otherwise the placements and the tight used area. -/
def try_pack_in_bin (packer : PackerFn) (boxes : List RectDims) (width height : Int) :
    Option (List Box × Int) :=
  let rects := packer (boxes.map fun b => (b.width, b.height)) width height
  if rects.length < boxes.length then none
  else
    match convertRects boxes rects with
    | none => none
    | some placements =>
      match compute_bounds placements with
      | none => none
      | some bd => some (placements, boundsArea bd)

/-- Fuel-based search for the least `s` with `m ≤ s * s`. -/
def sqrtCeilAux (m : Nat) : Nat → Nat → Nat
  | 0, s => s
  | fuel + 1, s => if m ≤ s * s then s else sqrtCeilAux m fuel (s + 1)

/-- The `int(math.ceil(math.sqrt(n)))`.  Modelled as the exact integer ceiling
square root — the least `s` with `n ≤ s * s` (the float rounding of
`math.sqrt` cannot affect any property stated below: the value only seeds
one of many candidate bin sizes). -/
def intSqrtCeil (n : Int) : Int := (sqrtCeilAux n.toNat n.toNat 0 : Nat)

/-- The `sorted(set(...))` on integers: sort after removing duplicates. -/
def dedupSortInt (l : List Int) : List Int :=
  stableSort (fun a b => a ≤ b) l.dedup

/-- The `generate_candidate_bins` of `solutions_gen.py`; `max()` raises on an
empty box list.  (CPython iterates sets in an unspecified order, so the
order of candidate bins with equal nominal area `w*h` is unspecified; the
model fixes the generation order as tie-break.  Every property proved
below is insensitive to that order.) -/
def generate_candidate_bins : List RectDims → Option (List (Int × Int))
  | [] => none
  | b :: rest =>
    let total_area := ((b :: rest).map fun q => q.width * q.height).sum
    let max_width := rest.foldl (fun m q => max m q.width) b.width
    let max_height := rest.foldl (fun m q => max m q.height) b.height
    let base := intSqrtCeil total_area
    let width_candidates :=
      [max_width, base, IMAGE_WIDTH] ++
        pyRange max_width (IMAGE_WIDTH + 1) 25 ++
        pyRange max_width (IMAGE_WIDTH + 1) 50 ++
        pyRange max_width (IMAGE_WIDTH + 1) 100
    let height_candidates :=
      [max_height, base, IMAGE_HEIGHT] ++
        pyRange max_height (IMAGE_HEIGHT + 1) 25 ++
        pyRange max_height (IMAGE_HEIGHT + 1) 50 ++
        pyRange max_height (IMAGE_HEIGHT + 1) 100
    let widths := dedupSortInt (width_candidates.filter fun w => w ≤ IMAGE_WIDTH)
    let heights := dedupSortInt (height_candidates.filter fun h => h ≤ IMAGE_HEIGHT)
    let bins := widths.flatMap fun w => heights.filterMap fun h =>
      if max_width ≤ w ∧ max_height ≤ h then some (w, h) else none
    some (stableSort (fun p q => p.1 * p.2 ≤ q.1 * q.2) bins)

/-- The candidate loop of `pack_boxes`: try each bin, keep the best by
used area, and stop as soon as a new best reaches the theoretical
minimum. -/
def packLoop (packer : PackerFn) (boxes : List RectDims) (minPossible : Int) :
    List (Int × Int) → Option (List Box × Int) → Option (List Box × Int)
  | [], best => best
  | (w, h) :: rest, best =>
    match try_pack_in_bin packer boxes w h with
    | none => packLoop packer boxes minPossible rest best
    | some (placements, used) =>
      if best.all fun b => used < b.2 then
        if used ≤ minPossible then some (placements, used)
        else packLoop packer boxes minPossible rest (some (placements, used))
      else packLoop packer boxes minPossible rest best

/-- The `placements.sort(key=lambda box: COLOR_ORDER.index(box["color_name"]))`;
`list.index` raises on a name outside the palette. -/
def sortPackedByColor (placements : List Box) : Option (List Box) :=
  if placements.all fun b => COLOR_ORDER.contains b.colorName then
    some (stableSort (fun a b => colorIndex a.colorName ≤ colorIndex b.colorName) placements)
  else none

/-- The `pack_boxes` of `solutions_gen.py`: sweep the candidate bins, fall
back to the full canvas, raise when even that fails; the winning
placements are returned in canonical color order. -/
def pack_boxes (packer : PackerFn) (boxes : List RectDims) : Option (List Box) :=
  match generate_candidate_bins boxes with
  | none => none
  | some cands =>
    let minPossible := (boxes.map fun b => b.width * b.height).sum
    match packLoop packer boxes minPossible cands none with
    | some (placements, _) => sortPackedByColor placements
    | none =>
      match try_pack_in_bin packer boxes IMAGE_WIDTH IMAGE_HEIGHT with
      | none => none
      | some (placements, _) => sortPackedByColor placements

theorem foldl_min_spec (f : Box → Int) :
    ∀ (l : List Box) (a : Int),
      (l.foldl (fun m q => min m (f q)) a ≤ a) ∧
      (∀ q ∈ l, l.foldl (fun m q => min m (f q)) a ≤ f q) ∧
      (l.foldl (fun m q => min m (f q)) a = a ∨
        ∃ q ∈ l, l.foldl (fun m q => min m (f q)) a = f q) := by
  intro l
  induction l with
  | nil => exact fun a => ⟨le_refl a, by simp, Or.inl rfl⟩
  | cons x xs ih =>
    intro a
    obtain ⟨h1, h2, h3⟩ := ih (min a (f x))
    rw [List.foldl_cons]
    refine ⟨le_trans h1 (min_le_left _ _), ?_, ?_⟩
    · intro q hq
      rcases List.mem_cons.mp hq with rfl | hq
      · exact le_trans h1 (min_le_right _ _)
      · exact h2 q hq
    · rcases h3 with h3 | ⟨q, hq, h3⟩
      · rcases le_total a (f x) with hc | hc
        · exact Or.inl (by rw [h3, min_eq_left hc])
        · exact Or.inr ⟨x, List.mem_cons_self x xs, by rw [h3, min_eq_right hc]⟩
      · exact Or.inr ⟨q, List.mem_cons_of_mem x hq, h3⟩

theorem foldl_max_spec (f : Box → Int) :
    ∀ (l : List Box) (a : Int),
      (a ≤ l.foldl (fun m q => max m (f q)) a) ∧
      (∀ q ∈ l, f q ≤ l.foldl (fun m q => max m (f q)) a) ∧
      (l.foldl (fun m q => max m (f q)) a = a ∨
        ∃ q ∈ l, l.foldl (fun m q => max m (f q)) a = f q) := by
  intro l
  induction l with
  | nil => exact fun a => ⟨le_refl a, by simp, Or.inl rfl⟩
  | cons x xs ih =>
    intro a
    obtain ⟨h1, h2, h3⟩ := ih (max a (f x))
    rw [List.foldl_cons]
    refine ⟨le_trans (le_max_left _ _) h1, ?_, ?_⟩
    · intro q hq
      rcases List.mem_cons.mp hq with rfl | hq
      · exact le_trans (le_max_right _ _) h1
      · exact h2 q hq
    · rcases h3 with h3 | ⟨q, hq, h3⟩
      · rcases le_total a (f x) with hc | hc
        · exact Or.inr ⟨x, List.mem_cons_self x xs, by rw [h3, max_eq_right hc]⟩
        · exact Or.inl (by rw [h3, max_eq_left hc])
      · exact Or.inr ⟨q, List.mem_cons_of_mem x hq, h3⟩

/-- The head-seeded fold of `compute_bounds` computes the minimum of `f`
over the whole (nonempty) list. -/
theorem head_fold_min_spec (f : Box → Int) (b : Box) (rest : List Box) :
    (∀ q ∈ b :: rest, rest.foldl (fun m q => min m (f q)) (f b) ≤ f q) ∧
    (∃ q ∈ b :: rest, rest.foldl (fun m q => min m (f q)) (f b) = f q) := by
  obtain ⟨h1, h2, h3⟩ := foldl_min_spec f rest (f b)
  constructor
  · intro q hq
    rcases List.mem_cons.mp hq with rfl | hq
    · exact h1
    · exact h2 q hq
  · rcases h3 with h3 | ⟨q, hq, h3⟩
    · exact ⟨b, List.mem_cons_self b rest, h3⟩
    · exact ⟨q, List.mem_cons_of_mem b hq, h3⟩

theorem head_fold_max_spec (f : Box → Int) (b : Box) (rest : List Box) :
    (∀ q ∈ b :: rest, f q ≤ rest.foldl (fun m q => max m (f q)) (f b)) ∧
    (∃ q ∈ b :: rest, rest.foldl (fun m q => max m (f q)) (f b) = f q) := by
  obtain ⟨h1, h2, h3⟩ := foldl_max_spec f rest (f b)
  constructor
  · intro q hq
    rcases List.mem_cons.mp hq with rfl | hq
    · exact h1
    · exact h2 q hq
  · rcases h3 with h3 | ⟨q, hq, h3⟩
    · exact ⟨b, List.mem_cons_self b rest, h3⟩
    · exact ⟨q, List.mem_cons_of_mem b hq, h3⟩

theorem head_fold_min_perm (f : Box → Int) {b1 b2 : Box} {r1 r2 : List Box}
    (hp : (b1 :: r1).Perm (b2 :: r2)) :
    r1.foldl (fun m q => min m (f q)) (f b1) = r2.foldl (fun m q => min m (f q)) (f b2) := by
  obtain ⟨hle1, q1, hq1, he1⟩ := head_fold_min_spec f b1 r1
  obtain ⟨hle2, q2, hq2, he2⟩ := head_fold_min_spec f b2 r2
  apply le_antisymm
  · rw [he2]
    exact hle1 q2 (hp.mem_iff.mpr hq2)
  · rw [he1]
    exact hle2 q1 (hp.mem_iff.mp hq1)

theorem head_fold_max_perm (f : Box → Int) {b1 b2 : Box} {r1 r2 : List Box}
    (hp : (b1 :: r1).Perm (b2 :: r2)) :
    r1.foldl (fun m q => max m (f q)) (f b1) = r2.foldl (fun m q => max m (f q)) (f b2) := by
  obtain ⟨hle1, q1, hq1, he1⟩ := head_fold_max_spec f b1 r1
  obtain ⟨hle2, q2, hq2, he2⟩ := head_fold_max_spec f b2 r2
  apply le_antisymm
  · rw [he1]
    exact hle2 q1 (hp.mem_iff.mp hq1)
  · rw [he2]
    exact hle1 q2 (hp.mem_iff.mpr hq2)

/-- The `compute_bounds` only depends on the multiset of boxes, so the final
color-order sort of `pack_boxes` does not change the used area. -/
theorem compute_bounds_perm {l1 l2 : List Box} (hp : l1.Perm l2) :
    compute_bounds l1 = compute_bounds l2 := by
  cases l1 with
  | nil =>
    have : l2 = [] := List.Perm.eq_nil hp.symm
    rw [this]
  | cons b1 r1 =>
    cases l2 with
    | nil => exact absurd (List.Perm.eq_nil hp) (by simp)
    | cons b2 r2 =>
      simp only [compute_bounds]
      rw [head_fold_min_perm (fun q => q.x) hp,
        head_fold_min_perm (fun q => q.y) hp,
        head_fold_max_perm (fun q => q.x + q.width) hp,
        head_fold_max_perm (fun q => q.y + q.height) hp]

/-- The integer pixels covered by a box: the half-open product
`[x, x+width) × [y, y+height)`. -/
def pixSet (b : Box) : Finset (Int × Int) :=
  (Finset.Ico b.x (b.x + b.width)) ×ˢ (Finset.Ico b.y (b.y + b.height))

theorem card_pixSet (b : Box) :
    (pixSet b).card = b.width.toNat * b.height.toNat := by
  rw [pixSet, Finset.card_product, Int.card_Ico, Int.card_Ico]
  congr 1 <;> omega

theorem pixSet_disjoint {a b : Box} (h : boxes_overlap a b = false) :
    Disjoint (pixSet a) (pixSet b) := by
  rw [Finset.disjoint_left]
  rintro ⟨px, py⟩ hpa hpb
  simp only [pixSet, Finset.mem_product, Finset.mem_Ico] at hpa hpb
  rw [boxes_overlap_eq_false_iff] at h
  exact h ⟨by omega, by omega, by omega, by omega⟩

theorem sum_pix_le :
    ∀ (l : List Box) (big : Finset (Int × Int)),
    l.Pairwise (fun a b => boxes_overlap a b = false) →
    (∀ b ∈ l, pixSet b ⊆ big) →
    (l.map fun b => (pixSet b).card).sum ≤ big.card := by
  intro l
  induction l with
  | nil => simp
  | cons a l ih =>
    intro big hpw hsub
    rw [List.pairwise_cons] at hpw
    have hsuba : pixSet a ⊆ big := hsub a (List.mem_cons_self a l)
    have hsubl : ∀ b ∈ l, pixSet b ⊆ big \ pixSet a := by
      intro b hb p hp
      rw [Finset.mem_sdiff]
      refine ⟨hsub b (List.mem_cons_of_mem a hb) hp, ?_⟩
      intro hpa
      exact (Finset.disjoint_left.mp (pixSet_disjoint (hpw.1 b hb))) hpa hp
    have hih := ih (big \ pixSet a) hpw.2 hsubl
    have hcardsd : (big \ pixSet a).card = big.card - (pixSet a).card :=
      Finset.card_sdiff hsuba
    have hle : (pixSet a).card ≤ big.card := Finset.card_le_card hsuba
    simp only [List.map_cons, List.sum_cons]
    omega

theorem sum_area_eq_sum_pix :
    ∀ {l : List Box}, (∀ b ∈ l, 0 < b.width ∧ 0 < b.height) →
    (l.map fun b => b.width * b.height).sum
      = (((l.map fun b => (pixSet b).card).sum : Nat) : Int) := by
  intro l
  induction l with
  | nil => simp
  | cons a l ih =>
    intro hdims
    have ha := hdims a (List.mem_cons_self a l)
    have hrest := ih fun b hb => hdims b (List.mem_cons_of_mem a hb)
    simp only [List.map_cons, List.sum_cons]
    rw [hrest, card_pixSet]
    push_cast
    rw [Int.toNat_of_nonneg (le_of_lt ha.1), Int.toNat_of_nonneg (le_of_lt ha.2)]

theorem compute_bounds_cover {l : List Box} {bd : Bounds}
    (hbd : compute_bounds l = some bd)
    (hcanvas : ∀ b ∈ l, 0 ≤ b.x ∧ b.x + b.width ≤ IMAGE_WIDTH ∧
      0 ≤ b.y ∧ b.y + b.height ≤ IMAGE_HEIGHT)
    (hdims : ∀ b ∈ l, 0 ≤ b.width ∧ 0 ≤ b.height) :
    (∀ b ∈ l, bd.left ≤ b.x ∧ b.x + b.width ≤ bd.right ∧
      bd.top ≤ b.y ∧ b.y + b.height ≤ bd.bottom) ∧
    bd.left ≤ bd.right ∧ bd.top ≤ bd.bottom := by
  cases l with
  | nil => exact absurd hbd (by simp [compute_bounds])
  | cons b rest =>
    simp only [compute_bounds] at hbd
    obtain rfl := Option.some.inj hbd
    obtain ⟨hminx, q1, hq1, he1⟩ := head_fold_min_spec (fun q => q.x) b rest
    obtain ⟨hminy, q2, hq2, he2⟩ := head_fold_min_spec (fun q => q.y) b rest
    obtain ⟨hmaxx, q3, hq3, he3⟩ := head_fold_max_spec (fun q => q.x + q.width) b rest
    obtain ⟨hmaxy, q4, hq4, he4⟩ := head_fold_max_spec (fun q => q.y + q.height) b rest
    have hq1c := hcanvas q1 hq1
    have hq2c := hcanvas q2 hq2
    have hq3c := hcanvas q3 hq3
    have hq4c := hcanvas q4 hq4
    have hOW : OUTLINE_WIDTH = 2 := rfl
    have hIW : IMAGE_WIDTH = 800 := rfl
    have hIH : IMAGE_HEIGHT = 600 := rfl
    constructor
    · intro q hq
      have hminq := hminx q hq
      have hminqy := hminy q hq
      have hmaxq := hmaxx q hq
      have hmaxqy := hmaxy q hq
      have hqc := hcanvas q hq
      refine ⟨max_le (by omega) (by omega), le_min (by omega) (by omega),
        max_le (by omega) (by omega), le_min (by omega) (by omega)⟩
    · have hbb := hcanvas b (List.mem_cons_self b rest)
      have hdb := hdims b (List.mem_cons_self b rest)
      have h1 := hminx b (List.mem_cons_self b rest)
      have h2 := hminy b (List.mem_cons_self b rest)
      have h3 := hmaxx b (List.mem_cons_self b rest)
      have h4 := hmaxy b (List.mem_cons_self b rest)
      constructor
      · apply max_le <;> apply le_min <;> omega
      · apply max_le <;> apply le_min <;> omega

/-- Sum of the box areas is at most the (outline-expanded, clamped)
bounding-box area, for pairwise non-overlapping in-canvas boxes of
positive dimensions. -/
theorem sum_areas_le_boundsArea {l : List Box} {bd : Bounds}
    (hbd : compute_bounds l = some bd)
    (hcanvas : ∀ b ∈ l, 0 ≤ b.x ∧ b.x + b.width ≤ IMAGE_WIDTH ∧
      0 ≤ b.y ∧ b.y + b.height ≤ IMAGE_HEIGHT)
    (hdims : ∀ b ∈ l, 0 < b.width ∧ 0 < b.height)
    (hpw : l.Pairwise fun a b => boxes_overlap a b = false) :
    (l.map fun b => b.width * b.height).sum ≤ boundsArea bd := by
  obtain ⟨hcover, hlr, htb⟩ := compute_bounds_cover hbd hcanvas
    (fun b hb => ⟨le_of_lt (hdims b hb).1, le_of_lt (hdims b hb).2⟩)
  have hsub : ∀ b ∈ l, pixSet b ⊆
      pixSet ⟨bd.left, bd.top, bd.right - bd.left, bd.bottom - bd.top, "", (0, 0, 0)⟩ := by
    intro b hb p hp
    have hc := hcover b hb
    simp only [pixSet, Finset.mem_product, Finset.mem_Ico] at hp ⊢
    refine ⟨⟨?_, ?_⟩, ?_, ?_⟩ <;> omega
  have hcount := sum_pix_le l _ hpw hsub
  have hbigcard :
      (pixSet ⟨bd.left, bd.top, bd.right - bd.left, bd.bottom - bd.top, "", (0, 0, 0)⟩).card
      = (bd.right - bd.left).toNat * (bd.bottom - bd.top).toNat := by
    rw [card_pixSet]
  rw [sum_area_eq_sum_pix hdims]
  have hcast : (((l.map fun b => (pixSet b).card).sum : Nat) : Int)
      ≤ ((((pixSet ⟨bd.left, bd.top, bd.right - bd.left, bd.bottom - bd.top, "",
        (0, 0, 0)⟩).card : Nat)) : Int) := by
    exact_mod_cast hcount
  refine le_trans hcast ?_
  rw [hbigcard, boundsArea]
  push_cast
  rw [Int.toNat_of_nonneg (by omega), Int.toNat_of_nonneg (by omega)]

/-- Width/height (rotation-normalized) and color of a placed box — the
data `pack_minimal_bounds` must conserve. -/
def normDims (b : Box) : Int × Int × String × RGB :=
  (min b.width b.height, max b.width b.height, b.colorName, b.color)

/-- Same normal form for an input rectangle. -/
def normDimsR (b : RectDims) : Int × Int × String × RGB :=
  (min b.width b.height, max b.width b.height, b.colorName, b.color)

theorem nodup_lt_perm_range {l : List Nat} {n : Nat} (hnd : l.Nodup)
    (hlt : ∀ i ∈ l, i < n) (hlen : l.length = n) : l.Perm (List.range n) := by
  apply List.perm_of_nodup_nodup_toFinset_eq hnd (List.nodup_range n)
  have hsub : l.toFinset ⊆ Finset.range n := by
    intro i hi
    rw [Finset.mem_range]
    exact hlt i (List.mem_toFinset.mp hi)
  have hcard : l.toFinset.card = n := by
    rw [List.toFinset_card_of_nodup hnd, hlen]
  have heq : l.toFinset = Finset.range n :=
    Finset.eq_of_subset_of_card_le hsub (by rw [hcard, Finset.card_range])
  rw [heq]
  ext i
  simp [List.mem_range]

theorem convertRects_mem {boxes : List RectDims} :
    ∀ {rects : List PackedRect} {pl : List Box},
    convertRects boxes rects = some pl →
    ∀ p ∈ pl, ∃ r ∈ rects, ∃ b, boxes[r.rid]? = some b ∧
      p = ⟨r.x, r.y, r.w, r.h, b.colorName, b.color⟩ := by
  intro rects
  induction rects with
  | nil =>
    intro pl h p hp
    obtain rfl : ([] : List Box) = pl := by simpa [convertRects] using h
    exact absurd hp (by simp)
  | cons r rs ih =>
    intro pl h p hp
    simp only [convertRects] at h
    split at h
    · exact absurd h (by simp)
    · rename_i b hb
      split at h
      · exact absurd h (by simp)
      · rename_i tail htail
        obtain rfl : Box.mk r.x r.y r.w r.h b.colorName b.color :: tail = pl := by
          simpa using h
        rcases List.mem_cons.mp hp with rfl | hp
        · exact ⟨r, List.mem_cons_self r rs, b, hb, rfl⟩
        · obtain ⟨r2, hr2, b2, hb2, hp2⟩ := ih htail p hp
          exact ⟨r2, List.mem_cons_of_mem r hr2, b2, hb2, hp2⟩

theorem convertRects_length {boxes : List RectDims} :
    ∀ {rects : List PackedRect} {pl : List Box},
    convertRects boxes rects = some pl → pl.length = rects.length := by
  intro rects
  induction rects with
  | nil =>
    intro pl h
    obtain rfl : ([] : List Box) = pl := by simpa [convertRects] using h
    rfl
  | cons r rs ih =>
    intro pl h
    simp only [convertRects] at h
    split at h
    · exact absurd h (by simp)
    · rename_i b hb
      split at h
      · exact absurd h (by simp)
      · rename_i tail htail
        obtain rfl : Box.mk r.x r.y r.w r.h b.colorName b.color :: tail = pl := by
          simpa using h
        simp [ih htail]

theorem convertRects_pairwise {boxes : List RectDims} :
    ∀ {rects : List PackedRect} {pl : List Box},
    convertRects boxes rects = some pl →
    rects.Pairwise (fun r s => boxes_overlap (boxOfPacked r) (boxOfPacked s) = false) →
    pl.Pairwise (fun a b => boxes_overlap a b = false) := by
  intro rects
  induction rects with
  | nil =>
    intro pl h _
    obtain rfl : ([] : List Box) = pl := by simpa [convertRects] using h
    exact List.Pairwise.nil
  | cons r rs ih =>
    intro pl h hpw
    simp only [convertRects] at h
    split at h
    · exact absurd h (by simp)
    · rename_i b hb
      split at h
      · exact absurd h (by simp)
      · rename_i tail htail
        obtain rfl : Box.mk r.x r.y r.w r.h b.colorName b.color :: tail = pl := by
          simpa using h
        rw [List.pairwise_cons] at hpw
        refine List.Pairwise.cons ?_ (ih htail hpw.2)
        intro q hq
        obtain ⟨s, hs, b2, hb2, rfl⟩ := convertRects_mem htail q hq
        exact hpw.1 s hs

theorem convertRects_map_norm {boxes : List RectDims} :
    ∀ {rects : List PackedRect} {pl : List Box},
    convertRects boxes rects = some pl →
    (∀ r ∈ rects, ∃ d, (boxes.map fun b => (b.width, b.height))[r.rid]? = some d ∧
        ((r.w, r.h) = d ∨ (r.w, r.h) = (d.2, d.1))) →
    pl.map normDims = (rects.map fun r => r.rid).map
      (fun i => normDimsR ((boxes[i]?).getD ⟨0, 0, "", (0, 0, 0)⟩)) := by
  intro rects
  induction rects with
  | nil =>
    intro pl h _
    obtain rfl : ([] : List Box) = pl := by simpa [convertRects] using h
    rfl
  | cons r rs ih =>
    intro pl h hdims
    simp only [convertRects] at h
    split at h
    · exact absurd h (by simp)
    · rename_i b hb
      split at h
      · exact absurd h (by simp)
      · rename_i tail htail
        obtain rfl : Box.mk r.x r.y r.w r.h b.colorName b.color :: tail = pl := by
          simpa using h
        obtain ⟨d, hd, hswap⟩ := hdims r (List.mem_cons_self r rs)
        rw [List.getElem?_map, hb] at hd
        obtain rfl : (b.width, b.height) = d := by simpa using hd
        have hrest := ih htail fun s hs => hdims s (List.mem_cons_of_mem r hs)
        simp only [List.map_cons, hrest, hb]
        congr 1
        simp only [normDims, normDimsR, Option.getD_some]
        rcases hswap with hsw | hsw
        · obtain ⟨hw, hh⟩ : r.w = b.width ∧ r.h = b.height := by
            constructor <;> [exact congrArg Prod.fst hsw; exact congrArg Prod.snd hsw]
          rw [hw, hh]
        · obtain ⟨hw, hh⟩ : r.w = b.height ∧ r.h = b.width := by
            constructor <;> [exact congrArg Prod.fst hsw; exact congrArg Prod.snd hsw]
          rw [hw, hh, min_comm, max_comm]

theorem map_getD_range {α γ : Type _} (f : α → γ) (d : α) :
    ∀ (l : List α),
    (List.range l.length).map (fun i => f ((l[i]?).getD d)) = l.map f := by
  intro l
  induction l with
  | nil => rfl
  | cons x xs ih =>
    rw [List.length_cons, List.range_succ_eq_map, List.map_cons, List.map_map]
    congr 1
    · simp
    · rw [← ih]
      apply List.map_congr_left
      intro i hi
      simp

/-- Everything a successful `try_pack_in_bin` guarantees, given the
rectpack interface contract: conservation of rotation-normalized
dimensions and colors, pairwise non-overlap, containment in the bin, and
the reported area being the bounds area of the placements. -/
theorem try_pack_ok {packer : PackerFn} (hok : PackerOk packer) {boxes : List RectDims}
    {W H : Int} {pl : List Box} {used : Int}
    (h : try_pack_in_bin packer boxes W H = some (pl, used)) :
    (pl.map normDims).Perm (boxes.map normDimsR) ∧
    pl.Pairwise (fun a b => boxes_overlap a b = false) ∧
    (∀ p ∈ pl, 0 ≤ p.x ∧ p.x + p.width ≤ W ∧ 0 ≤ p.y ∧ p.y + p.height ≤ H) ∧
    ∃ bd, compute_bounds pl = some bd ∧ used = boundsArea bd := by
  obtain ⟨hmem, hpw⟩ := hok (boxes.map fun b => (b.width, b.height)) W H
  simp only [try_pack_in_bin] at h
  split at h
  · exact absurd h (by simp)
  · rename_i hlen
    split at h
    · exact absurd h (by simp)
    · rename_i pl0 hconv
      split at h
      · exact absurd h (by simp)
      · rename_i bd hbd
        obtain ⟨rfl, rfl⟩ : pl0 = pl ∧ boundsArea bd = used := by
          constructor
          · exact congrArg Prod.fst (Option.some.inj h)
          · exact congrArg Prod.snd (Option.some.inj h)
        refine ⟨?_, ?_, ?_, bd, hbd, rfl⟩
        · have hnd : (List.map (fun r => r.rid) (packer (boxes.map fun b => (b.width, b.height)) W H)).Nodup := by
            rw [List.Nodup, List.pairwise_map]
            exact hpw.imp fun hc => hc.1
          have hlt : ∀ i ∈ (List.map (fun r => r.rid) (packer (boxes.map fun b => (b.width, b.height)) W H)),
              i < boxes.length := by
            intro i hi
            obtain ⟨r, hr, rfl⟩ := List.mem_map.mp hi
            obtain ⟨d, hd, -⟩ := hmem r hr
            have := (List.getElem?_eq_some_iff.mp hd).1
            rwa [List.length_map] at this
          have hlen2 : (List.map (fun r => r.rid) (packer (boxes.map fun b => (b.width, b.height)) W H)).length
              = boxes.length := by
            apply le_antisymm
            · have hsub : (List.map (fun r => r.rid) (packer (boxes.map fun b => (b.width, b.height)) W H)).toFinset
                  ⊆ Finset.range boxes.length := by
                intro i hi
                rw [Finset.mem_range]
                exact hlt i (List.mem_toFinset.mp hi)
              calc (List.map (fun r => r.rid) (packer (boxes.map fun b => (b.width, b.height)) W H)).length
                  = (List.map (fun r => r.rid) (packer (boxes.map fun b => (b.width, b.height)) W H)).toFinset.card :=
                    (List.toFinset_card_of_nodup hnd).symm
                _ ≤ (Finset.range boxes.length).card := Finset.card_le_card hsub
                _ = boxes.length := Finset.card_range _
            · rw [List.length_map]
              omega
          have hperm := nodup_lt_perm_range hnd hlt hlen2
          have hmapnorm := convertRects_map_norm hconv fun r hr => by
            obtain ⟨d, hd, hsw, -⟩ := hmem r hr
            exact ⟨d, hd, hsw⟩
          rw [hmapnorm]
          refine (hperm.map _).trans ?_
          rw [map_getD_range]
        · exact convertRects_pairwise hconv (hpw.imp fun hc => hc.2)
        · intro p hp
          obtain ⟨r, hr, b, hb, rfl⟩ := convertRects_mem hconv p hp
          obtain ⟨d, hd, hsw, hx0, hy0, hxW, hyH⟩ := hmem r hr
          exact ⟨hx0, hxW, hy0, hyH⟩

theorem packLoop_le_best {packer : PackerFn} {boxes : List RectDims} {minP : Int} :
    ∀ (cands : List (Int × Int)) (pl0 : List Box) (a0 : Int) {pl : List Box} {used : Int},
    packLoop packer boxes minP cands (some (pl0, a0)) = some (pl, used) →
    used ≤ a0 := by
  intro cands
  induction cands with
  | nil =>
    intro pl0 a0 pl used h
    obtain rfl : a0 = used := by
      have := Option.some.inj h
      exact congrArg Prod.snd this
    exact le_refl _
  | cons c rest ih =>
    intro pl0 a0 pl used h
    rcases c with ⟨cw, ch⟩
    simp only [packLoop] at h
    split at h
    · exact ih pl0 a0 h
    · rename_i pls us htp
      split at h
      · rename_i hbetter
        have hlt : us < a0 := by simpa using hbetter
        split at h
        · obtain rfl : us = used := congrArg Prod.snd (Option.some.inj h)
          omega
        · have := ih pls us h
          omega
      · exact ih pl0 a0 h

theorem packLoop_some {packer : PackerFn} {boxes : List RectDims} {minP : Int} :
    ∀ (cands : List (Int × Int)) (best : Option (List Box × Int)) {pl : List Box} {used : Int},
    packLoop packer boxes minP cands best = some (pl, used) →
    best = some (pl, used) ∨
      ∃ c ∈ cands, try_pack_in_bin packer boxes c.1 c.2 = some (pl, used) := by
  intro cands
  induction cands with
  | nil =>
    intro best pl used h
    exact Or.inl h
  | cons c rest ih =>
    intro best pl used h
    rcases c with ⟨cw, ch⟩
    simp only [packLoop] at h
    split at h
    · rcases ih best h with h2 | ⟨c2, hc2, h2⟩
      · exact Or.inl h2
      · exact Or.inr ⟨c2, List.mem_cons_of_mem _ hc2, h2⟩
    · rename_i pls us htp
      split at h
      · split at h
        · obtain ⟨rfl, rfl⟩ : pls = pl ∧ us = used := by
            exact ⟨congrArg Prod.fst (Option.some.inj h), congrArg Prod.snd (Option.some.inj h)⟩
          exact Or.inr ⟨(cw, ch), List.mem_cons_self _ _, htp⟩
        · rcases ih (some (pls, us)) h with h2 | ⟨c2, hc2, h2⟩
          · obtain ⟨rfl, rfl⟩ : pls = pl ∧ us = used := by
              exact ⟨congrArg Prod.fst (Option.some.inj h2), congrArg Prod.snd (Option.some.inj h2)⟩
            exact Or.inr ⟨(cw, ch), List.mem_cons_self _ _, htp⟩
          · exact Or.inr ⟨c2, List.mem_cons_of_mem _ hc2, h2⟩
      · rcases ih best h with h2 | ⟨c2, hc2, h2⟩
        · exact Or.inl h2
        · exact Or.inr ⟨c2, List.mem_cons_of_mem _ hc2, h2⟩

theorem packLoop_quality {packer : PackerFn} {boxes : List RectDims} {minP : Int} :
    ∀ (cands : List (Int × Int)) (best : Option (List Box × Int)) {pl : List Box} {used : Int},
    packLoop packer boxes minP cands best = some (pl, used) →
    ∀ c ∈ cands, ∀ (pl2 : List Box) (a2 : Int),
      try_pack_in_bin packer boxes c.1 c.2 = some (pl2, a2) →
      used ≤ a2 ∨ used ≤ minP := by
  intro cands
  induction cands with
  | nil =>
    intro best pl used h c hc
    exact absurd hc (by simp)
  | cons c0 rest ih =>
    intro best pl used h c hc pl2 a2 htry
    rcases c0 with ⟨cw, ch⟩
    simp only [packLoop] at h
    split at h
    · rename_i htp
      rcases List.mem_cons.mp hc with rfl | hc
      · rw [htp] at htry
        exact absurd htry (by simp)
      · exact ih best h c hc pl2 a2 htry
    · rename_i pls us htp
      split at h
      · rename_i hbetter
        split at h
        · rename_i hmin
          obtain rfl : us = used := congrArg Prod.snd (Option.some.inj h)
          exact Or.inr hmin
        · rcases List.mem_cons.mp hc with rfl | hc
          · rw [htp] at htry
            obtain rfl : a2 = us := congrArg Prod.snd (Option.some.inj htry.symm)
            exact Or.inl (packLoop_le_best rest pls _ h)
          · exact ih (some (pls, us)) h c hc pl2 a2 htry
      · rename_i hnotbetter
        rcases hbest : best with _ | ⟨pb, ab⟩
        · rw [hbest] at hnotbetter
          exact absurd (by simp : (Option.none (α := List Box × Int)).all (fun b => us < b.2) = true)
            hnotbetter
        · rw [hbest] at h hnotbetter
          have hab : ab ≤ us := by
            by_contra hcon
            exact hnotbetter (by simpa using lt_of_not_le hcon)
          have hle := packLoop_le_best rest pb ab h
          rcases List.mem_cons.mp hc with rfl | hc
          · rw [htp] at htry
            obtain rfl : a2 = us := congrArg Prod.snd (Option.some.inj htry.symm)
            exact Or.inl (by omega)
          · exact ih (some (pb, ab)) h c hc pl2 a2 htry

theorem mem_dedupSortInt {l : List Int} {v : Int} : v ∈ dedupSortInt l ↔ v ∈ l := by
  unfold dedupSortInt
  rw [(stableSort_perm _ _).mem_iff, List.mem_dedup]

theorem sortPackedByColor_ok {pl out : List Box}
    (h : sortPackedByColor pl = some out) : out.Perm pl := by
  simp only [sortPackedByColor] at h
  split at h
  · obtain rfl := Option.some.inj h
    exact stableSort_perm _ pl
  · exact absurd h (by simp)

theorem mem_binsList {widths heights : List Int} {mw mh : Int} {c : Int × Int} :
    c ∈ widths.flatMap (fun w => heights.filterMap fun h =>
        if mw ≤ w ∧ mh ≤ h then some (w, h) else none) ↔
      (c.1 ∈ widths ∧ c.2 ∈ heights ∧ mw ≤ c.1 ∧ mh ≤ c.2) := by
  constructor
  · intro hc
    obtain ⟨w, hw, hc2⟩ := List.mem_flatMap.mp hc
    obtain ⟨ht, hht, hc3⟩ := List.mem_filterMap.mp hc2
    split at hc3
    · rename_i hcond
      obtain rfl := Option.some.inj hc3
      exact ⟨hw, hht, hcond.1, hcond.2⟩
    · exact absurd hc3 (by simp)
  · rintro ⟨h1, h2, h3, h4⟩
    apply List.mem_flatMap.mpr
    refine ⟨c.1, h1, ?_⟩
    apply List.mem_filterMap.mpr
    refine ⟨c.2, h2, ?_⟩
    rw [if_pos ⟨h3, h4⟩]

theorem gen_bins_spec {boxes : List RectDims} {cands : List (Int × Int)}
    (h : generate_candidate_bins boxes = some cands) :
    (∀ c ∈ cands, c.1 ≤ IMAGE_WIDTH ∧ c.2 ≤ IMAGE_HEIGHT) ∧
    ((IMAGE_WIDTH, IMAGE_HEIGHT) ∈ cands ∨ cands = []) := by
  cases boxes with
  | nil => exact absurd h (by simp [generate_candidate_bins])
  | cons b rest =>
    simp only [generate_candidate_bins] at h
    obtain rfl := Option.some.inj h
    constructor
    · intro c hc
      rw [(stableSort_perm _ _).mem_iff, mem_binsList] at hc
      obtain ⟨h1, h2, -, -⟩ := hc
      rw [mem_dedupSortInt, List.mem_filter] at h1 h2
      exact ⟨by simpa using h1.2, by simpa using h2.2⟩
    · by_cases hcase :
          rest.foldl (fun m q => max m q.width) b.width ≤ IMAGE_WIDTH ∧
          rest.foldl (fun m q => max m q.height) b.height ≤ IMAGE_HEIGHT
      · left
        rw [(stableSort_perm _ _).mem_iff, mem_binsList]
        refine ⟨?_, ?_, hcase.1, hcase.2⟩
        · rw [mem_dedupSortInt, List.mem_filter]
          exact ⟨by simp, by simp⟩
        · rw [mem_dedupSortInt, List.mem_filter]
          exact ⟨by simp, by simp⟩
      · right
        have hbins : (dedupSortInt (([rest.foldl (fun m q => max m q.width) b.width,
              intSqrtCeil (((b :: rest).map fun q => q.width * q.height).sum), IMAGE_WIDTH] ++
              pyRange (rest.foldl (fun m q => max m q.width) b.width) (IMAGE_WIDTH + 1) 25 ++
              pyRange (rest.foldl (fun m q => max m q.width) b.width) (IMAGE_WIDTH + 1) 50 ++
              pyRange (rest.foldl (fun m q => max m q.width) b.width) (IMAGE_WIDTH + 1) 100).filter
                fun w => w ≤ IMAGE_WIDTH)).flatMap
            (fun w => (dedupSortInt (([rest.foldl (fun m q => max m q.height) b.height,
              intSqrtCeil (((b :: rest).map fun q => q.width * q.height).sum), IMAGE_HEIGHT] ++
              pyRange (rest.foldl (fun m q => max m q.height) b.height) (IMAGE_HEIGHT + 1) 25 ++
              pyRange (rest.foldl (fun m q => max m q.height) b.height) (IMAGE_HEIGHT + 1) 50 ++
              pyRange (rest.foldl (fun m q => max m q.height) b.height) (IMAGE_HEIGHT + 1) 100).filter
                fun h => h ≤ IMAGE_HEIGHT)).filterMap fun h =>
              if rest.foldl (fun m q => max m q.width) b.width ≤ w ∧
                  rest.foldl (fun m q => max m q.height) b.height ≤ h then
                some (w, h) else none) = [] := by
          rw [List.eq_nil_iff_forall_not_mem]
          intro c hc
          rw [mem_binsList] at hc
          obtain ⟨h1, h2, h3, h4⟩ := hc
          rw [mem_dedupSortInt, List.mem_filter] at h1 h2
          have hc1 : c.1 ≤ IMAGE_WIDTH := by simpa using h1.2
          have hc2 : c.2 ≤ IMAGE_HEIGHT := by simpa using h2.2
          rw [Decidable.not_and_iff_or_not] at hcase
          rcases hcase with hcase | hcase <;> omega
        rw [hbins]
        rfl

theorem pack_boxes_destruct {packer : PackerFn} {boxes : List RectDims} {out : List Box}
    (h : pack_boxes packer boxes = some out) :
    ∃ (pl : List Box) (used : Int) (W H : Int),
      W ≤ IMAGE_WIDTH ∧ H ≤ IMAGE_HEIGHT ∧
      try_pack_in_bin packer boxes W H = some (pl, used) ∧
      sortPackedByColor pl = some out := by
  simp only [pack_boxes] at h
  split at h
  · exact absurd h (by simp)
  · rename_i cands hcands
    split at h
    · rename_i placements used hloop
      rcases packLoop_some cands none hloop with h2 | ⟨c, hc, h2⟩
      · exact absurd h2 (by simp)
      · have hcb := (gen_bins_spec hcands).1 c hc
        exact ⟨placements, used, c.1, c.2, hcb.1, hcb.2, h2, h⟩
    · rename_i hloop
      split at h
      · exact absurd h (by simp)
      · rename_i placements used hfb
        exact ⟨placements, used, IMAGE_WIDTH, IMAGE_HEIGHT, le_refl _, le_refl _, hfb, h⟩

theorem try_pack_full_facts {packer : PackerFn} (hok : PackerOk packer)
    {boxes : List RectDims} {W H : Int} {pl : List Box} {used : Int}
    (hW : W ≤ IMAGE_WIDTH) (hH : H ≤ IMAGE_HEIGHT)
    (hdims : ∀ b ∈ boxes, 0 < b.width ∧ 0 < b.height)
    (htry : try_pack_in_bin packer boxes W H = some (pl, used)) :
    (pl.map normDims).Perm (boxes.map normDimsR) ∧
    ∃ bd, compute_bounds pl = some bd ∧ used = boundsArea bd ∧
      (boxes.map fun b => b.width * b.height).sum ≤ used := by
  obtain ⟨hnorm, hpw, hin, bd, hbd, rfl⟩ := try_pack_ok hok htry
  refine ⟨hnorm, bd, hbd, rfl, ?_⟩
  have hdims_pl : ∀ p ∈ pl, 0 < p.width ∧ 0 < p.height := by
    intro p hp
    have hmem : normDims p ∈ boxes.map normDimsR :=
      hnorm.mem_iff.mp (List.mem_map_of_mem normDims hp)
    obtain ⟨b0, hb0, heq⟩ := List.mem_map.mp hmem
    have h1 : min b0.width b0.height = min p.width p.height :=
      congrArg Prod.fst heq
    have hd0 := hdims b0 hb0
    have : 0 < min p.width p.height := by
      rw [← h1]
      exact lt_min hd0.1 hd0.2
    constructor
    · exact lt_of_lt_of_le this (min_le_left _ _)
    · exact lt_of_lt_of_le this (min_le_right _ _)
  have hcanvas_pl : ∀ p ∈ pl, 0 ≤ p.x ∧ p.x + p.width ≤ IMAGE_WIDTH ∧
      0 ≤ p.y ∧ p.y + p.height ≤ IMAGE_HEIGHT := by
    intro p hp
    obtain ⟨h1, h2, h3, h4⟩ := hin p hp
    exact ⟨h1, le_trans h2 hW, h3, le_trans h4 hH⟩
  have hsum_pl := sum_areas_le_boundsArea hbd hcanvas_pl hdims_pl hpw
  have hsums : (boxes.map fun b => b.width * b.height).sum
      = (pl.map fun p => p.width * p.height).sum := by
    have h1 : (pl.map fun p => p.width * p.height)
        = (pl.map normDims).map fun t => t.1 * t.2.1 := by
      rw [List.map_map]
      apply List.map_congr_left
      intro p _
      simp [normDims, min_mul_max]
    have h2 : (boxes.map fun b => b.width * b.height)
        = (boxes.map normDimsR).map fun t => t.1 * t.2.1 := by
      rw [List.map_map]
      apply List.map_congr_left
      intro b _
      simp [normDimsR, min_mul_max]
    rw [h1, h2]
    exact ((hnorm.map fun t => t.1 * t.2.1).symm).sum_eq
  rw [hsums]
  exact hsum_pl

/-- Claim C5.  Whenever `pack_boxes` returns normally, the tight bounding
area of the returned placement is at least the sum of the individual
input rectangle areas. -/
theorem pack_boxes_area_lower_bound {packer : PackerFn} {boxes : List RectDims}
    {out : List Box} (hok : PackerOk packer)
    (hdims : ∀ b ∈ boxes, 0 < b.width ∧ 0 < b.height)
    (h : pack_boxes packer boxes = some out) :
    ∃ bd, compute_bounds out = some bd ∧
      (boxes.map fun b => b.width * b.height).sum ≤ boundsArea bd := by
  obtain ⟨pl, used, W, H, hW, hH, htry, hsort⟩ := pack_boxes_destruct h
  obtain ⟨hnorm, bd, hbd, rfl, hsum⟩ := try_pack_full_facts hok hW hH hdims htry
  have hperm := sortPackedByColor_ok hsort
  exact ⟨bd, by rw [compute_bounds_perm hperm, hbd], hsum⟩

/-- Claim C6.  The tight bounding area of the candidate `pack_boxes`
chooses is at most the tight bounding area obtained by packing the same
rectangles directly into the full 800×600 canvas (whenever that direct
packing succeeds). -/
theorem pack_boxes_le_full_canvas {packer : PackerFn} {boxes : List RectDims}
    {out plF : List Box} {usedF : Int} (hok : PackerOk packer)
    (hdims : ∀ b ∈ boxes, 0 < b.width ∧ 0 < b.height)
    (h : pack_boxes packer boxes = some out)
    (hfull : try_pack_in_bin packer boxes IMAGE_WIDTH IMAGE_HEIGHT = some (plF, usedF)) :
    ∃ bd, compute_bounds out = some bd ∧ boundsArea bd ≤ usedF := by
  have hminF : (boxes.map fun b => b.width * b.height).sum ≤ usedF := by
    obtain ⟨-, bdF, -, rfl, hsumF⟩ :=
      try_pack_full_facts hok (le_refl _) (le_refl _) hdims hfull
    exact hsumF
  simp only [pack_boxes] at h
  split at h
  · exact absurd h (by simp)
  · rename_i cands hcands
    split at h
    · rename_i placements used hloop
      have hbdout : ∃ bd, compute_bounds out = some bd ∧ used = boundsArea bd := by
        rcases packLoop_some cands none hloop with h2 | ⟨c, hc, h2⟩
        · exact absurd h2 (by simp)
        · obtain ⟨-, -, -, bd, hbd, rfl⟩ := try_pack_ok hok h2
          exact ⟨bd, by rw [compute_bounds_perm (sortPackedByColor_ok h), hbd], rfl⟩
      obtain ⟨bd, hbd, rfl⟩ := hbdout
      refine ⟨bd, hbd, ?_⟩
      rcases (gen_bins_spec hcands).2 with hmem | hnil
      · rcases packLoop_quality cands none hloop (IMAGE_WIDTH, IMAGE_HEIGHT) hmem
            plF usedF hfull with hle | hle
        · exact hle
        · exact le_trans hle hminF
      · rw [hnil] at hloop
        exact absurd hloop (by simp [packLoop])
    · rename_i hloop
      split at h
      · exact absurd h (by simp)
      · rename_i placements used hfb
        rw [hfull] at hfb
        obtain ⟨rfl, rfl⟩ : plF = placements ∧ usedF = used := by
          exact ⟨congrArg Prod.fst (Option.some.inj hfb),
            congrArg Prod.snd (Option.some.inj hfb)⟩
        obtain ⟨-, -, -, bd, hbd, rfl⟩ := try_pack_ok hok hfull
        exact ⟨bd, by rw [compute_bounds_perm (sortPackedByColor_ok h), hbd], le_refl _⟩

/-- Claim C2.  Conservation: the placer keeps the multiset of `(width,
height, color)` triples exactly, and the optimizer keeps it up to
swapping each rectangle's width and height (rotation), colors preserved —
only positions change. -/
theorem conservation_of_dimensions :
    (∀ (rng : Nat → Nat × Nat) (boxes out : List Box),
        arrange_boxes_without_overlap rng boxes = .ok out →
        (out.map dims).Perm (boxes.map dims)) ∧
    (∀ (packer : PackerFn) (boxes : List RectDims) (out : List Box),
        PackerOk packer → pack_boxes packer boxes = some out →
        (out.map normDims).Perm (boxes.map normDimsR)) := by
  constructor
  · exact fun rng boxes out h => arrange_map_dims h
  · intro packer boxes out hok h
    obtain ⟨pl, used, W, H, hW, hH, htry, hsort⟩ := pack_boxes_destruct h
    exact ((sortPackedByColor_ok hsort).map normDims).trans (try_pack_ok hok htry).1

/-- A concrete packer for the witness runs: stack the added rectangles
top-down at `x = 0`, stopping at the first rectangle that does not fit
(no rotation — allowed by the interface). -/
def stackPackerGo (W H : Int) : List (Int × Int) → Int → Nat → List PackedRect
  | [], _, _ => []
  | (w, h) :: rest, curY, i =>
    if 0 ≤ w ∧ w ≤ W ∧ 0 ≤ h ∧ curY + h ≤ H then
      ⟨0, curY, w, h, i⟩ :: stackPackerGo W H rest (curY + h) (i + 1)
    else []

/-- The witness packer as a `PackerFn`. -/
def stackPacker : PackerFn := fun ds W H => stackPackerGo W H ds 0 0

theorem stackPackerGo_mem (W H : Int) :
    ∀ (ds : List (Int × Int)) (curY : Int) (i : Nat), 0 ≤ curY →
    ∀ r ∈ stackPackerGo W H ds curY i,
      i ≤ r.rid ∧ curY ≤ r.y ∧ ds[r.rid - i]? = some (r.w, r.h) ∧
      0 ≤ r.x ∧ 0 ≤ r.y ∧ r.x + r.w ≤ W ∧ r.y + r.h ≤ H := by
  intro ds
  induction ds with
  | nil =>
    intro curY i h0 r hr
    simp [stackPackerGo] at hr
  | cons d rest ih =>
    intro curY i h0 r hr
    rcases d with ⟨w, h⟩
    simp only [stackPackerGo] at hr
    split at hr
    · rename_i hfit
      rcases List.mem_cons.mp hr with rfl | hr
      · refine ⟨le_refl _, le_refl _, ?_, le_refl _, h0,
          by show (0 : Int) + w ≤ W; omega, by show curY + h ≤ H; omega⟩
        simp
      · obtain ⟨h1, h2, h3, h4, h5, h6, h7⟩ := ih (curY + h) (i + 1) (by omega) r hr
        refine ⟨by omega, by omega, ?_, h4, h5, h6, h7⟩
        have hsub : r.rid - i = (r.rid - (i + 1)) + 1 := by omega
        rw [hsub]
        simpa using h3
    · simp at hr

theorem stackPackerGo_pairwise (W H : Int) :
    ∀ (ds : List (Int × Int)) (curY : Int) (i : Nat), 0 ≤ curY →
    (stackPackerGo W H ds curY i).Pairwise (fun r s => r.rid ≠ s.rid ∧
      boxes_overlap (boxOfPacked r) (boxOfPacked s) = false) := by
  intro ds
  induction ds with
  | nil =>
    intro curY i h0
    exact List.Pairwise.nil
  | cons d rest ih =>
    intro curY i h0
    rcases d with ⟨w, h⟩
    simp only [stackPackerGo]
    split
    · rename_i hfit
      refine List.Pairwise.cons ?_ (ih (curY + h) (i + 1) (by omega))
      intro s hs
      obtain ⟨h1, h2, -, -, -, -, -⟩ := stackPackerGo_mem W H rest (curY + h) (i + 1)
        (by omega) s hs
      constructor
      · intro hrid
        have hrid2 : i = s.rid := hrid
        omega
      · rw [boxes_overlap_eq_false_iff]
        intro hconj
        simp only [boxOfPacked] at hconj
        omega
    · exact List.Pairwise.nil

theorem stackPacker_ok : PackerOk stackPacker := by
  intro ds W H
  constructor
  · intro r hr
    obtain ⟨h1, h2, h3, h4, h5, h6, h7⟩ :=
      stackPackerGo_mem W H ds 0 0 (le_refl _) r hr
    refine ⟨(r.w, r.h), ?_, Or.inl rfl, h4, h5, h6, h7⟩
    simpa using h3
  · exact stackPackerGo_pairwise W H ds 0 0 (le_refl _)

/-- Input of the packing witness runs: one 600×480 red rectangle. -/
def boxesP : List RectDims := [⟨600, 480, "red", (255, 0, 0)⟩]

/-- The placement `pack_boxes stackPacker boxesP` computes. -/
def outP : List Box := [⟨0, 0, 600, 480, "red", (255, 0, 0)⟩]

set_option maxRecDepth 40000 in
theorem conservation_of_dimensions_witness :
    (outP.map normDims).Perm (boxesP.map normDimsR) :=
  conservation_of_dimensions.2 stackPacker boxesP outP stackPacker_ok (by rfl)

set_option maxRecDepth 40000 in
theorem pack_boxes_area_lower_bound_witness :
    ∃ bd, compute_bounds outP = some bd ∧
      (boxesP.map fun b => b.width * b.height).sum ≤ boundsArea bd :=
  pack_boxes_area_lower_bound stackPacker_ok (by decide)
    (show pack_boxes stackPacker boxesP = some outP from by rfl)

set_option maxRecDepth 40000 in
theorem pack_boxes_le_full_canvas_witness :
    ∃ bd, compute_bounds outP = some bd ∧ boundsArea bd ≤ 290164 :=
  pack_boxes_le_full_canvas stackPacker_ok (by decide)
    (show pack_boxes stackPacker boxesP = some outP from by rfl)
    (show try_pack_in_bin stackPacker boxesP IMAGE_WIDTH IMAGE_HEIGHT
      = some ([⟨0, 0, 600, 480, "red", (255, 0, 0)⟩], 290164) from by rfl)

/-- Strengthened error analysis of the placement loop: when it raises the
`RuntimeError`, the failing rectangle and the rectangles already placed
are (by index) distinct input boxes — their dimension/color data jointly
form a sub-multiset of the remaining budget — the already-placed ones are
pairwise non-overlapping and inside the canvas, and every step-5 grid
position for the failing rectangle overlaps one of them. -/
theorem placeLoop_cannotPlace_strong {rng : Nat → Nat × Nat} :
    ∀ (order : List Nat) {k : Nat} {arr placed : List Box}
      {budget : List (Int × Int × String × RGB)},
    placeLoop rng k arr order placed = .error .cannotPlace →
    order.Nodup →
    placed.Pairwise (fun a b => boxes_overlap a b = false) →
    (∀ p ∈ placed, InCanvas p) →
    (placed.map dims ++ order.map fun i =>
        dims ((arr[i]?).getD ⟨0, 0, 0, 0, "", (0, 0, 0)⟩)).Subperm budget →
    ∃ (box : Box) (placed2 : List Box),
      ((box :: placed2).map dims).Subperm budget ∧
      box.width ≤ IMAGE_WIDTH ∧ box.height ≤ IMAGE_HEIGHT ∧
      placed2.Pairwise (fun a b => boxes_overlap a b = false) ∧
      (∀ p ∈ placed2, InCanvas p) ∧
      ∀ y ∈ pyRange 0 (IMAGE_HEIGHT - box.height + 1) 5,
        ∀ x ∈ pyRange 0 (IMAGE_WIDTH - box.width + 1) 5,
          ∃ o ∈ placed2, boxes_overlap { box with x := x, y := y } o = true := by
  intro order
  induction order with
  | nil =>
    intro k arr placed budget h _ _ _ _
    exact absurd h (by simp [placeLoop])
  | cons i rest ih =>
    intro k arr placed budget h hnd hpw hcv hsub
    obtain ⟨hi, hndrest⟩ := List.nodup_cons.mp hnd
    simp only [placeLoop] at h
    split at h
    · exact absurd h (by simp)
    · rename_i box hbox
      have hmaphead : (i :: rest).map (fun j =>
          dims ((arr[j]?).getD ⟨0, 0, 0, 0, "", (0, 0, 0)⟩)) =
          dims box :: rest.map (fun j =>
            dims ((arr[j]?).getD ⟨0, 0, 0, 0, "", (0, 0, 0)⟩)) := by
        simp [hbox]
      rw [hmaphead] at hsub
      split at h
      · rename_i e hpl
        obtain rfl : e = .cannotPlace := by simpa using h
        have hfacts := placeOne_cannotPlace hpl
        refine ⟨box, placed, ?_, hfacts.1, hfacts.2.1, hpw, hcv, hfacts.2.2⟩
        have hl1 : ((box :: placed).map dims).Perm (placed.map dims ++ [dims box]) := by
          simpa using (List.perm_append_singleton (dims box) (placed.map dims)).symm
        have hmid : (placed.map dims ++ [dims box]).Sublist
            (placed.map dims ++ (dims box :: rest.map (fun j =>
              dims ((arr[j]?).getD ⟨0, 0, 0, 0, "", (0, 0, 0)⟩)))) :=
          List.Sublist.append_left ((List.nil_sublist _).cons₂ (dims box)) _
        exact hl1.subperm.trans (hmid.subperm.trans hsub)
      · rename_i p kNext hpl
        have hone := placeOne_ok hpl
        refine ih h hndrest ?_ ?_ ?_
        · rw [List.pairwise_append]
          refine ⟨hpw, List.pairwise_singleton _ _, ?_⟩
          intro a ha b hb
          obtain rfl : b = { box with x := p.1, y := p.2 } := by simpa using hb
          rw [boxes_overlap_symm]
          exact hone.1 a ha
        · intro q hq
          rcases List.mem_append.mp hq with hq | hq
          · exact hcv q hq
          · obtain rfl : q = { box with x := p.1, y := p.2 } := by simpa using hq
            exact hone.2
        · have hrest : rest.map (fun j =>
              dims (((arr.set i { box with x := p.1, y := p.2 })[j]?).getD
                ⟨0, 0, 0, 0, "", (0, 0, 0)⟩)) =
              rest.map (fun j =>
                dims ((arr[j]?).getD ⟨0, 0, 0, 0, "", (0, 0, 0)⟩)) := by
            apply List.map_congr_left
            intro j hj
            have hji : i ≠ j := fun hx => hi (hx ▸ hj)
            rw [List.getElem?_set_ne hji]
          rw [hrest, List.map_append, List.append_assoc]
          simp only [List.map_cons, List.map_nil, List.singleton_append]
          have hdimseq : dims { box with x := p.1, y := p.2 } = dims box := rfl
          rw [hdimseq]
          exact hsub

/-- Claim C4, amended.  When the placer raises its fatal error, all that
follows is that some input rectangle `box`, together with a set `placed`
of already-placed rectangles — jointly distinct input boxes by their
dimension/color data, pairwise non-overlapping and inside the canvas —
admits no position on the step-5 grid that avoids every member of
`placed` (the 500 random attempts having failed as well); it does not
follow that no global non-overlapping in-canvas assignment of all the
input rectangles exists. -/
theorem arrange_cannotPlace_grid_blocked {rng : Nat → Nat × Nat} {boxes : List Box}
    (h : arrange_boxes_without_overlap rng boxes = .error .cannotPlace) :
    ∃ (box : Box) (placed : List Box),
      ((box :: placed).map dims).Subperm (boxes.map dims) ∧
      box.width ≤ IMAGE_WIDTH ∧ box.height ≤ IMAGE_HEIGHT ∧
      placed.Pairwise (fun a b => boxes_overlap a b = false) ∧
      (∀ p ∈ placed, InCanvas p) ∧
      ∀ y ∈ pyRange 0 (IMAGE_HEIGHT - box.height + 1) 5,
        ∀ x ∈ pyRange 0 (IMAGE_WIDTH - box.width + 1) 5,
          ∃ o ∈ placed, boxes_overlap { box with x := x, y := y } o = true := by
  simp only [arrange_boxes_without_overlap] at h
  split at h
  · rename_i e heq
    obtain rfl : e = .cannotPlace := by simpa using h
    refine placeLoop_cannotPlace_strong (placementOrder boxes) heq ?_
      List.Pairwise.nil (by simp) ?_
    · exact ((stableSort_perm _ _).nodup_iff).mpr (List.nodup_range _)
    · rw [List.map_nil, List.nil_append]
      refine List.Perm.subperm ?_
      refine ((stableSort_perm _ _).map _).trans ?_
      rw [map_getD_range dims ⟨0, 0, 0, 0, "", (0, 0, 0)⟩ boxes]
  · rename_i arrF kF heq
    simp only [sortByColorOrder] at h
    split at h
    · exact absurd h (by simp)
    · exact absurd h (by simp)

set_option maxRecDepth 8000 in
theorem arrange_cannotPlace_grid_blocked_witness :
    ∃ (box : Box) (placed : List Box),
      ((box :: placed).map dims).Subperm (boxesC.map dims) ∧
      box.width ≤ IMAGE_WIDTH ∧ box.height ≤ IMAGE_HEIGHT ∧
      placed.Pairwise (fun a b => boxes_overlap a b = false) ∧
      (∀ p ∈ placed, InCanvas p) ∧
      ∀ y ∈ pyRange 0 (IMAGE_HEIGHT - box.height + 1) 5,
        ∀ x ∈ pyRange 0 (IMAGE_WIDTH - box.width + 1) 5,
          ∃ o ∈ placed, boxes_overlap { box with x := x, y := y } o = true :=
  arrange_cannotPlace_grid_blocked
    (show arrange_boxes_without_overlap rngC boxesC = .error .cannotPlace from by rfl)

end DeepPlace
